import Mathlib

/-!
Verification of the Sora Invite Code Hunter core (app.py, sora_invite.py,
storage/memory_repo.py, storage/sqlite_repo.py) against its specification.

The Python code is shallowly embedded: pure fragments become Lean functions,
stateful objects become explicit state records, wall-clock instants become
natural numbers, and the Python strings that flow through the pipeline become
Lean strings (lists of characters).  Character-level operations (str.upper,
regex word boundaries, whitespace) are modelled for the ASCII texts the
application manipulates.
-/

/-- ASCII model of Python `str.upper` on one character: a lowercase ASCII
letter is shifted down by 32, every other character is unchanged. -/
def upChar (c : Char) : Char :=
  if 'a' ≤ c ∧ c ≤ 'z' then Char.ofNat (c.toNat - 32) else c

/-- ASCII model of Python `str.lower` on one character. -/
def lowChar (c : Char) : Char :=
  if 'A' ≤ c ∧ c ≤ 'Z' then Char.ofNat (c.toNat + 32) else c

/-- Python `str.upper` over a whole string (ASCII model). -/
def pyUpper (s : String) : String :=
  String.mk (s.data.map upChar)

theorem toNat_ofNat_valid (n : Nat) (h : n.isValidChar) : (Char.ofNat n).toNat = n := by
  simp [Char.ofNat, h, Char.ofNatAux, Char.toNat, UInt32.toNat, BitVec.toNat_ofNatLt]

theorem char_le_iff_toNat (a b : Char) : a ≤ b ↔ a.toNat ≤ b.toNat := by
  rw [Char.le_def]
  rfl

theorem upChar_idem (c : Char) : upChar (upChar c) = upChar c := by
  unfold upChar
  by_cases h : 'a' ≤ c ∧ c ≤ 'z'
  · simp only [h, if_true]
    have hlo : ('a' : Char).toNat ≤ c.toNat := (char_le_iff_toNat _ _).mp h.1
    have hhi : c.toNat ≤ ('z' : Char).toNat := (char_le_iff_toNat _ _).mp h.2
    have ha : ('a' : Char).toNat = 97 := by decide
    have hz : ('z' : Char).toNat = 122 := by decide
    have hvalid : (c.toNat - 32).isValidChar := by
      left; omega
    have htoNat : (Char.ofNat (c.toNat - 32)).toNat = c.toNat - 32 :=
      toNat_ofNat_valid _ hvalid
    have hnot : ¬ ('a' ≤ Char.ofNat (c.toNat - 32) ∧ Char.ofNat (c.toNat - 32) ≤ 'z') := by
      intro hcon
      have := (char_le_iff_toNat _ _).mp hcon.1
      rw [htoNat, ha] at this
      omega
    simp [hnot]
  · simp [h]

theorem pyUpper_idem (s : String) : pyUpper (pyUpper s) = pyUpper s := by
  unfold pyUpper
  simp only [List.map_map]
  exact congrArg String.mk (List.map_congr_left (fun a _ => upChar_idem a))

/-!
Scheduler backoff state, from app.py class AdapterState (lines 360-381).
`time.time()` is passed explicitly as `now`; durations are natural numbers of
seconds, faithful to the integer arithmetic the Python code performs on them.
-/

/-- app.py `MAX_BACKOFF = 300`. -/
def MAX_BACKOFF : Nat := 300

/-- Scheduler bookkeeping of one adapter, app.py class AdapterState. -/
structure AdapterState where
  interval : Nat
  backoff : Nat
  next_run : Nat
deriving Repr, DecidableEq

/-- app.py AdapterState.schedule_next: `delay = self.backoff if self.backoff
else self.interval; self.next_run = time.time() + max(5, delay)`. -/
def scheduleNext (now : Nat) (s : AdapterState) : AdapterState :=
  let delay := if s.backoff ≠ 0 then s.backoff else s.interval
  { s with next_run := now + max 5 delay }

/-- app.py AdapterState.record_success. -/
def recordSuccess (now : Nat) (s : AdapterState) : AdapterState :=
  scheduleNext now { s with backoff := 0 }

/-- app.py AdapterState.record_failure: doubles a nonzero backoff (seeded from
the base interval, or twice the base when rate limited), clamps at
MAX_BACKOFF, then reschedules. -/
def recordFailure (now : Nat) (rateLimited : Bool) (s : AdapterState) : AdapterState :=
  let base := s.interval
  let grown :=
    if rateLimited then
      min MAX_BACKOFF (max (if s.backoff ≠ 0 then s.backoff * 2 else base * 2) base)
    else
      min MAX_BACKOFF (max (if s.backoff ≠ 0 then s.backoff * 2 else base) base)
  scheduleNext now { s with backoff := grown }

/-- Four consecutive non-rate-limited failures of a base-60 adapter, starting
from zero backoff at time 0. -/
def failTwice (k : Nat) : AdapterState :=
  Nat.rec { interval := 60, backoff := 0, next_run := 0 }
    (fun _ s => recordFailure 0 false s) k

/-- C6: a failure sets backoff to min(ceiling, max(2k if k>0 else seed, b))
with seed b for generic errors and 2b for rate limiting, then schedules
next_run = now + max(5, backoff); from base 60 the non-rate-limited backoff
sequence is 60, 120, 240, 300 (capped). -/
theorem C6_backoff_growth (s : AdapterState) (now : Nat) :
    ((recordFailure now false s).backoff
        = min 300 (max (if 0 < s.backoff then 2 * s.backoff else s.interval) s.interval)
      ∧ (recordFailure now true s).backoff
        = min 300 (max (if 0 < s.backoff then 2 * s.backoff else 2 * s.interval) s.interval))
    ∧ (∀ rl : Bool, (recordFailure now rl s).next_run
        = now + max 5 (recordFailure now rl s).backoff)
    ∧ ((failTwice 1).backoff = 60 ∧ (failTwice 2).backoff = 120
      ∧ (failTwice 3).backoff = 240 ∧ (failTwice 4).backoff = 300
      ∧ (failTwice 5).backoff = 300) := by
  refine ⟨⟨?_, ?_⟩, ?_, by decide⟩
  · simp only [recordFailure, scheduleNext, MAX_BACKOFF, Bool.false_eq_true, if_false]
    split_ifs <;> omega
  · simp only [recordFailure, scheduleNext, MAX_BACKOFF, eq_self_iff_true, if_true]
    split_ifs <;> omega
  · intro rl
    cases rl <;> simp only [recordFailure, scheduleNext, MAX_BACKOFF,
      Bool.false_eq_true, if_false, eq_self_iff_true, if_true] <;> split_ifs <;> omega

/-!
Candidate records and the two repository backends, from storage/repo.py,
storage/memory_repo.py and storage/sqlite_repo.py.  The in-memory backend is
a Python dict (insertion-ordered, keyed by the uppercased code); it is
modelled as an association list.  The SQLite backend is a table with an
AUTOINCREMENT rowid and a unique constraint on code; it is modelled as a
list of (rowid, row) pairs plus the next rowid.
-/

/-- One stored candidate, the eight persisted fields of storage/repo.py
CandidateRecord (tried and hidden are stored as the integers 0/1). -/
structure CandidateRecord where
  code : String
  source : String
  source_title : String
  url : String
  example_text : String
  discovered_at : String
  tried : Nat
  hidden : Nat
deriving Repr, DecidableEq

/-- Python string comparison: lexicographic on code points. -/
def pyStrLt (a b : String) : Prop := a.data < b.data

instance (a b : String) : Decidable (pyStrLt a b) := by
  unfold pyStrLt; infer_instance

/-- Python `sub in hay` substring test. -/
def strContains (hay sub : String) : Bool := decide (sub.data <:+: hay.data)

/-- Stable insertion sort; `le x y` means x may be placed before y.  Used to
model Python `list.sort` (stable) and the total SQL ORDER BY. -/
def insertLe (le : α → α → Bool) (x : α) : List α → List α
  | [] => [x]
  | y :: ys => if le x y then x :: y :: ys else y :: insertLe le x ys

/-- Sort a list with the stable insertion sort. -/
def insertionSortBy (le : α → α → Bool) : List α → List α
  | [] => []
  | x :: xs => insertLe le x (insertionSortBy le xs)

/-- Comparator of InMemoryRepository.list: sort by the discovered_at string,
reverse=True; ties keep insertion order (Python sort is stable). -/
def memLe (a b : CandidateRecord) : Bool :=
  ! decide (pyStrLt a.discovered_at b.discovered_at)

/-- SQLite `datetime(discovered_at)` on the well-formed UTC ISO-8601 strings
the application produces: the date and clock time down to whole seconds, with
the T separator replaced by a space (fractional seconds are dropped). -/
def dtKey (s : String) : String :=
  String.mk ((s.data.take 19).map (fun c => if c = 'T' then ' ' else c))

/-- Comparator of SQLiteRepository.list: ORDER BY datetime(discovered_at)
DESC, rowid DESC. -/
def sqlLe (a b : Nat × CandidateRecord) : Bool :=
  decide (pyStrLt (dtKey b.2.discovered_at) (dtKey a.2.discovered_at))
    || (dtKey a.2.discovered_at == dtKey b.2.discovered_at && decide (b.1 ≤ a.1))

namespace Mem

/-- The dict of InMemoryRepository: insertion-ordered (key, record) pairs,
where the key is the uppercased code. -/
abbrev Store := List (String × CandidateRecord)

/-- Python `code in self._store`. -/
def containsKey (store : Store) (key : String) : Bool :=
  store.any (fun kv => kv.1 == key)

/-- memory_repo.py add_candidate: key by upper-cased code, no-op when the key
is already present, otherwise store a copy of the record. -/
def add_candidate (store : Store) (c : CandidateRecord) : Bool × Store :=
  let code := pyUpper c.code
  if containsKey store code then (false, store)
  else (true, store ++ [(code, c)])

/-- memory_repo.py mark_tried. -/
def mark_tried (store : Store) (code : String) (tried : Bool) : Bool × Store :=
  let key := pyUpper code
  if containsKey store key then
    (true, store.map (fun kv =>
      if kv.1 == key then (kv.1, { kv.2 with tried := if tried then 1 else 0 }) else kv))
  else (false, store)

/-- memory_repo.py toggle_hidden: returns the new hidden flag, or none for a
missing code. -/
def toggle_hidden (store : Store) (code : String) : Option Bool × Store :=
  let key := pyUpper code
  match store.find? (fun kv => kv.1 == key) with
  | none => (none, store)
  | some kv0 =>
    let newHidden : Nat := if kv0.2.hidden ≠ 0 then 0 else 1
    (some (newHidden ≠ 0), store.map (fun kv =>
      if kv.1 == key then (kv.1, { kv.2 with hidden := newHidden }) else kv))

/-- memory_repo.py delete. -/
def delete (store : Store) (code : String) : Bool × Store :=
  let key := pyUpper code
  if containsKey store key then (true, store.filter (fun kv => ! (kv.1 == key)))
  else (false, store)

/-- memory_repo.py `exists` (named existsCode here; `exists` is reserved). -/
def existsCode (store : Store) (code : String) : Bool :=
  containsKey store (pyUpper code)

/-- Filter step of memory_repo.py list; a `none` query or source models the
falsy (absent or empty) Python filter argument. -/
def recordPasses (q source : Option String) (include_hidden include_tried : Bool)
    (r : CandidateRecord) : Bool :=
  (include_hidden || r.hidden == 0)
    && (include_tried || r.tried == 0)
    && (match source with | none => true | some s => r.source == s)
    && (match q with
        | none => true
        | some qs =>
          strContains
            (pyUpper (r.code ++ (" ") ++ r.source_title ++ (" ") ++ r.example_text))
            (pyUpper qs))

/-- memory_repo.py list: filter the stored records, sort newest-first by the
discovered_at string (stable, descending), then slice. -/
def list (store : Store) (q source : Option String)
    (include_hidden include_tried : Bool) (offset limit : Nat) : List CandidateRecord :=
  (((insertionSortBy memLe
      ((store.map Prod.snd).filter (recordPasses q source include_hidden include_tried))).drop
    offset).take limit)

/-- memory_repo.py count: the length of an (effectively) unsliced list call. -/
def count (store : Store) (q source : Option String)
    (include_hidden include_tried : Bool) : Nat :=
  (list store q source include_hidden include_tried 0 10000000).length

/-- memory_repo.py get_latest: list with the default filters. -/
def get_latest (store : Store) (limit : Nat) : List CandidateRecord :=
  list store none none false true 0 limit

end Mem

namespace Sql

/-- The candidates table of SQLiteRepository: rows tagged with their rowid,
plus the next AUTOINCREMENT id (starting at 1). -/
structure Db where
  rows : List (Nat × CandidateRecord)
  nextId : Nat
deriving Repr, DecidableEq

/-- The empty table right after the schema is created. -/
def init : Db := { rows := [], nextId := 1 }

/-- Whether a row with exactly this code exists (the UNIQUE constraint on
code compares the stored text exactly). -/
def containsCode (db : Db) (code : String) : Bool :=
  db.rows.any (fun r => r.2.code == code)

/-- sqlite_repo.py add_candidate: INSERT OR IGNORE keyed by the unique code
column; rowcount > 0 exactly when the row was newly inserted. -/
def add_candidate (db : Db) (c : CandidateRecord) : Bool × Db :=
  if containsCode db c.code then (false, db)
  else (true, { rows := db.rows ++ [(db.nextId, c)], nextId := db.nextId + 1 })

/-- sqlite_repo.py mark_tried: UPDATE ... WHERE code = upper(code). -/
def mark_tried (db : Db) (code : String) (tried : Bool) : Bool × Db :=
  let key := pyUpper code
  (db.rows.any (fun r => r.2.code == key),
    { db with rows := db.rows.map (fun r =>
        if r.2.code == key then (r.1, { r.2 with tried := if tried then 1 else 0 }) else r) })

/-- sqlite_repo.py toggle_hidden: SELECT then UPDATE, both WHERE code =
upper(code). -/
def toggle_hidden (db : Db) (code : String) : Option Bool × Db :=
  let key := pyUpper code
  match db.rows.find? (fun r => r.2.code == key) with
  | none => (none, db)
  | some r0 =>
    let newHidden : Nat := if r0.2.hidden ≠ 0 then 0 else 1
    (some (newHidden ≠ 0),
      { db with rows := db.rows.map (fun r =>
          if r.2.code == key then (r.1, { r.2 with hidden := newHidden }) else r) })

/-- sqlite_repo.py delete: DELETE ... WHERE code = upper(code). -/
def delete (db : Db) (code : String) : Bool × Db :=
  let key := pyUpper code
  (db.rows.any (fun r => r.2.code == key),
    { db with rows := db.rows.filter (fun r => ! (r.2.code == key)) })

/-- sqlite_repo.py `exists`: SELECT 1 ... WHERE code = upper(code). -/
def existsCode (db : Db) (code : String) : Bool :=
  db.rows.any (fun r => r.2.code == pyUpper code)

/-- WHERE clauses of sqlite_repo.py list/count; the LIKE filters test each of
the three upper-cased columns separately. -/
def rowPasses (q source : Option String) (include_hidden include_tried : Bool)
    (r : CandidateRecord) : Bool :=
  (include_hidden || r.hidden == 0)
    && (include_tried || r.tried == 0)
    && (match source with | none => true | some s => r.source == s)
    && (match q with
        | none => true
        | some qs =>
          strContains (pyUpper r.code) (pyUpper qs)
            || strContains (pyUpper r.source_title) (pyUpper qs)
            || strContains (pyUpper r.example_text) (pyUpper qs))

/-- sqlite_repo.py list: WHERE filters, ORDER BY datetime(discovered_at)
DESC, rowid DESC, LIMIT/OFFSET, then rows converted to dicts. -/
def list (db : Db) (q source : Option String)
    (include_hidden include_tried : Bool) (offset limit : Nat) : List CandidateRecord :=
  ((((insertionSortBy sqlLe
        (db.rows.filter (fun r => rowPasses q source include_hidden include_tried r.2))).drop
      offset).take limit).map Prod.snd)

/-- sqlite_repo.py count: SELECT COUNT(*) under the same WHERE clauses. -/
def count (db : Db) (q source : Option String)
    (include_hidden include_tried : Bool) : Nat :=
  (db.rows.filter (fun r => rowPasses q source include_hidden include_tried r.2)).length

/-- sqlite_repo.py get_latest: same ORDER BY, no WHERE clause at all. -/
def get_latest (db : Db) (limit : Nat) : List CandidateRecord :=
  ((insertionSortBy sqlLe db.rows).take limit).map Prod.snd

end Sql

/-- The methods defined on InMemoryRepository in storage/memory_repo.py. -/
def InMemoryRepositoryMethods : List String :=
  ["__init__", "add_candidate", "bulk_add", "mark_tried", "toggle_hidden",
    "delete", "list", "count", "exists", "get_latest"]

/-- The methods defined on SQLiteRepository in storage/sqlite_repo.py. -/
def SQLiteRepositoryMethods : List String :=
  ["__init__", "_init_db", "add_candidate", "bulk_add", "mark_tried",
    "toggle_hidden", "delete", "list", "count", "exists", "get_latest"]

/-- The abstract methods of storage/repo.py CandidateRepository. -/
def CandidateRepositoryMethods : List String :=
  ["add_candidate", "bulk_add", "mark_tried", "toggle_hidden", "delete",
    "list", "count", "exists", "get_latest"]

/-- The repository methods invoked by app.py api_snapshot (lines 503-520):
get_latest for the latest candidates, two count calls for the totals, and
count_since for the trailing 24-hour total. -/
def apiSnapshotRepositoryCalls : List String :=
  ["get_latest", "count", "count", "count_since"]

theorem find?_append_left_none {α : Type _} (p : α → Bool) (l₁ l₂ : List α)
    (h : l₁.any p = false) : (l₁ ++ l₂).find? p = l₂.find? p := by
  induction l₁ with
  | nil => simp
  | cons x xs ih =>
    simp only [List.any_cons, Bool.or_eq_false_iff] at h
    rw [List.cons_append, List.find?_cons_of_neg, ih h.2]
    simp [h.1]

/-- A concrete candidate record used to instantiate proved theorems. -/
def sampleRecord : CandidateRecord :=
  { code := "AB123", source := "test", source_title := "Example",
    url := "https://example.com", example_text := "Example snippet",
    discovered_at := "2024-01-01T00:00:00+00:00", tried := 0, hidden := 0 }

/-- The same code discovered again, with different payload fields. -/
def sampleRecord2 : CandidateRecord :=
  { sampleRecord with source_title := "Other", discovered_at := "2024-01-02T00:00:00+00:00" }

/-- C1: on both backends, add_candidate of a fresh code returns true; a second
call with the same code returns false and leaves the stored state (and the
stored record, which is the one of the first call) unchanged. -/
theorem C1_addIfAbsent_idempotent (mst : Mem.Store) (db : Sql.Db)
    (c c2 : CandidateRecord) (hcode : c2.code = c.code)
    (hm : Mem.containsKey mst (pyUpper c.code) = false)
    (hs : Sql.containsCode db c.code = false) :
    ((Mem.add_candidate mst c).1 = true
      ∧ (Mem.add_candidate (Mem.add_candidate mst c).2 c2).1 = false
      ∧ (Mem.add_candidate (Mem.add_candidate mst c).2 c2).2 = (Mem.add_candidate mst c).2
      ∧ ((Mem.add_candidate mst c).2.find? (fun kv => kv.1 == pyUpper c.code)
          = some (pyUpper c.code, c)))
    ∧ ((Sql.add_candidate db c).1 = true
      ∧ (Sql.add_candidate (Sql.add_candidate db c).2 c2).1 = false
      ∧ (Sql.add_candidate (Sql.add_candidate db c).2 c2).2 = (Sql.add_candidate db c).2
      ∧ ((Sql.add_candidate db c).2.rows.find? (fun r => r.2.code == c.code)
          = some (db.nextId, c))) := by
  have hm2 : Mem.containsKey (mst ++ [(pyUpper c.code, c)]) (pyUpper c2.code) = true := by
    simp [Mem.containsKey, List.any_append, hcode]
  have hs2 : Sql.containsCode
      { rows := db.rows ++ [(db.nextId, c)], nextId := db.nextId + 1 } c2.code = true := by
    simp [Sql.containsCode, List.any_append, hcode]
  refine ⟨⟨?_, ?_, ?_, ?_⟩, ?_, ?_, ?_, ?_⟩
  · simp [Mem.add_candidate, hm]
  · simp [Mem.add_candidate, hm, hm2]
  · simp [Mem.add_candidate, hm, hm2]
  · simp only [Mem.add_candidate, hm, Bool.false_eq_true, if_false]
    rw [find?_append_left_none _ _ _ (by simpa [Mem.containsKey] using hm)]
    simp
  · simp [Sql.add_candidate, hs]
  · simp [Sql.add_candidate, hs, hs2]
  · simp [Sql.add_candidate, hs, hs2]
  · simp only [Sql.add_candidate, hs, Bool.false_eq_true, if_false]
    rw [find?_append_left_none _ _ _ (by simpa [Sql.containsCode] using hs)]
    simp

theorem C1_addIfAbsent_idempotent_witness :
    ((Mem.add_candidate [] sampleRecord).1 = true
      ∧ (Mem.add_candidate (Mem.add_candidate [] sampleRecord).2 sampleRecord2).1 = false
      ∧ (Mem.add_candidate (Mem.add_candidate [] sampleRecord).2 sampleRecord2).2
          = (Mem.add_candidate [] sampleRecord).2
      ∧ ((Mem.add_candidate [] sampleRecord).2.find?
            (fun kv => kv.1 == pyUpper sampleRecord.code)
          = some (pyUpper sampleRecord.code, sampleRecord)))
    ∧ ((Sql.add_candidate Sql.init sampleRecord).1 = true
      ∧ (Sql.add_candidate (Sql.add_candidate Sql.init sampleRecord).2 sampleRecord2).1 = false
      ∧ (Sql.add_candidate (Sql.add_candidate Sql.init sampleRecord).2 sampleRecord2).2
          = (Sql.add_candidate Sql.init sampleRecord).2
      ∧ ((Sql.add_candidate Sql.init sampleRecord).2.rows.find?
            (fun r => r.2.code == sampleRecord.code)
          = some (Sql.init.nextId, sampleRecord))) :=
  C1_addIfAbsent_idempotent [] Sql.init sampleRecord sampleRecord2
    (by decide) (by decide) (by decide)

/-- C3: the snapshot endpoint calls count_since on the repository, but
count_since is not among the methods either backend (or the abstract
repository interface) defines; the spec-required operation is missing and the
call fails.  The method-name lists are transcribed from the class bodies. -/
theorem C3_count_since_missing :
    ("count_since" ∈ apiSnapshotRepositoryCalls)
      ∧ ("count_since" ∉ InMemoryRepositoryMethods)
      ∧ ("count_since" ∉ SQLiteRepositoryMethods)
      ∧ ("count_since" ∉ CandidateRepositoryMethods) := by
  decide

/-- C10: mark_tried, toggle_hidden, delete and the existence check coincide on
a code and its uppercased form on both backends (each uppercases its argument
before lookup), and a successful in-memory insert stores the record under the
uppercased code. -/
theorem C10_code_lookup_case_insensitive (mst : Mem.Store) (db : Sql.Db)
    (code : String) (tr : Bool) (c : CandidateRecord) :
    (Mem.mark_tried mst code tr = Mem.mark_tried mst (pyUpper code) tr
      ∧ Mem.toggle_hidden mst code = Mem.toggle_hidden mst (pyUpper code)
      ∧ Mem.delete mst code = Mem.delete mst (pyUpper code)
      ∧ Mem.existsCode mst code = Mem.existsCode mst (pyUpper code))
    ∧ (Sql.mark_tried db code tr = Sql.mark_tried db (pyUpper code) tr
      ∧ Sql.toggle_hidden db code = Sql.toggle_hidden db (pyUpper code)
      ∧ Sql.delete db code = Sql.delete db (pyUpper code)
      ∧ Sql.existsCode db code = Sql.existsCode db (pyUpper code))
    ∧ ((Mem.add_candidate mst c).1 = true →
        (Mem.add_candidate mst c).2 = mst ++ [(pyUpper c.code, c)]) := by
  refine ⟨⟨?_, ?_, ?_, ?_⟩, ⟨?_, ?_, ?_, ?_⟩, ?_⟩
  · simp [Mem.mark_tried, pyUpper_idem]
  · simp [Mem.toggle_hidden, pyUpper_idem]
  · simp [Mem.delete, pyUpper_idem]
  · simp [Mem.existsCode, pyUpper_idem]
  · simp [Sql.mark_tried, pyUpper_idem]
  · simp [Sql.toggle_hidden, pyUpper_idem]
  · simp [Sql.delete, pyUpper_idem]
  · simp [Sql.existsCode, pyUpper_idem]
  · intro h
    by_cases hc : Mem.containsKey mst (pyUpper c.code) = true
    · simp [Mem.add_candidate, hc] at h
    · simp [Mem.add_candidate, eq_false_of_ne_true hc]

theorem C10_code_lookup_case_insensitive_witness :
    Mem.mark_tried [] ("ab123") true = Mem.mark_tried [] (pyUpper ("ab123")) true
      ∧ (Mem.add_candidate [] sampleRecord).2
          = [] ++ [(pyUpper sampleRecord.code, sampleRecord)] :=
  ⟨(C10_code_lookup_case_insensitive [] Sql.init ("ab123") true sampleRecord).1.1,
    (C10_code_lookup_case_insensitive [] Sql.init ("ab123") true sampleRecord).2.2
      (by decide)⟩

/-!
Code extraction, from app.py class CodeExtractor (lines 97-153).  Texts are
lists of characters; the two regexes are modelled for ASCII text: a word
character (for the \b boundaries) is a letter, digit or underscore, and the
URL pattern is the literal scheme (case-insensitive) followed by at least one
non-whitespace character.  The recursions that consume a variable-length
chunk per step take an explicit fuel argument, always instantiated with the
length of the text, so that they stay structural and computable.
-/

/-- Regex word characters (ASCII): letters, digits and underscore. -/
def isWordChar (c : Char) : Bool := c.isAlphanum || c == '_'

/-- The regex character class [A-Z0-9]. -/
def isUpperAlnum (c : Char) : Bool :=
  decide ('A' ≤ c ∧ c ≤ 'Z') || decide ('0' ≤ c ∧ c ≤ '9')

/-- Case-insensitive prefix test (URL_PATTERN is compiled with IGNORECASE). -/
def startsWithCI (pat l : List Char) : Bool := (l.take pat.length).map lowChar == pat

/-- Whether position n is a non-whitespace character (the `[^\s]+` part of
the URL pattern needs at least one). -/
def nextNonSpace (l : List Char) (n : Nat) : Bool :=
  match l.drop n with
  | [] => false
  | c :: _ => ! c.isWhitespace

/-- Whether URL_PATTERN `https?://[^\s]+` matches at the head of l. -/
def isUrlStart (l : List Char) : Bool :=
  (startsWithCI ("http://".data) l && nextNonSpace l 7)
    || (startsWithCI ("https://".data) l && nextNonSpace l 8)

/-- URL_PATTERN.sub of a single space for every (leftmost, non-overlapping,
greedy) URL match; fuel bounds the number of remaining characters. -/
def stripUrlsF : Nat → List Char → List Char
  | 0, _ => []
  | _ + 1, [] => []
  | fuel + 1, c :: cs =>
    if isUrlStart (c :: cs) then
      let schemeLen := if startsWithCI ("https://".data) (c :: cs) then 8 else 7
      ' ' :: stripUrlsF fuel (((c :: cs).drop schemeLen).dropWhile (fun x => ! x.isWhitespace))
    else c :: stripUrlsF fuel cs

/-- app.py `self.URL_PATTERN.sub(" ", text)`. -/
def stripUrls (l : List Char) : List Char := stripUrlsF l.length l

/-- The maximal word-character runs of a text, in order. -/
def wordRunsF : Nat → List Char → List (List Char)
  | 0, _ => []
  | _ + 1, [] => []
  | fuel + 1, c :: cs =>
    if isWordChar c then
      (c :: cs.takeWhile isWordChar) :: wordRunsF fuel (cs.dropWhile isWordChar)
    else wordRunsF fuel cs

/-- The maximal word-character runs of a text. -/
def wordRuns (l : List Char) : List (List Char) := wordRunsF l.length l

/-- Extraction profile, app.py dataclass ExtractionSettings. -/
structure ExtractionSettings where
  min_len : Nat
  max_len : Nat
  denylist : List String
deriving Repr, DecidableEq

/-- finditer of `\b[A-Z0-9]{min,max}\b` on a text with no lowercase letters:
exactly the maximal word runs that consist of uppercase alphanumerics only
and have a length within bounds (positions inside a word run are not word
boundaries, so no other segment can match). -/
def regexMatches (st : ExtractionSettings) (l : List Char) : List (List Char) :=
  (wordRuns l).filter (fun r =>
    r.all isUpperAlnum && decide (st.min_len ≤ r.length ∧ r.length ≤ st.max_len))

/-- Python str.strip(): drop leading and trailing whitespace. -/
def pyStripWs (l : List Char) : List Char :=
  ((l.dropWhile Char.isWhitespace).reverse.dropWhile Char.isWhitespace).reverse

/-- Python str.isdigit (ASCII): nonempty and all digits. -/
def pyIsDigit (l : List Char) : Bool := ! l.isEmpty && l.all Char.isDigit

/-- Python str.isalpha (ASCII): nonempty and all letters. -/
def pyIsAlpha (l : List Char) : Bool := ! l.isEmpty && l.all Char.isAlpha

/-- Python len(set(token)) == 1: nonempty and all characters identical. -/
def allSame : List Char → Bool
  | [] => false
  | c :: cs => cs.all (fun x => x == c)

/-- Consecutive digit deltas of CodeExtractor._is_strictly_ascending. -/
def ascendingPairs : List Char → Bool
  | [] => true
  | [_] => true
  | a :: b :: rest => (b.toNat == a.toNat + 1) && ascendingPairs (b :: rest)

/-- CodeExtractor._is_strictly_ascending: false for length <= 1, otherwise
every consecutive digit pair differs by exactly one. -/
def isStrictlyAscending (l : List Char) : Bool :=
  if l.length ≤ 1 then false else ascendingPairs l

/-- The per-token rejection tests of CodeExtractor.extract, in source order:
denylist, must contain a digit, not all-alphabetic, not all one character,
not a strictly ascending digit run, and the defensive length double-check. -/
def tokenFilter (st : ExtractionSettings) (token : String) : Bool :=
  ! ((st.denylist.map pyUpper).contains token)
    && token.data.any Char.isDigit
    && ! pyIsAlpha token.data
    && ! allSame token.data
    && ! (pyIsDigit token.data && isStrictlyAscending token.data)
    && decide (st.min_len ≤ token.data.length ∧ token.data.length ≤ st.max_len)

/-- app.py CodeExtractor.extract: empty input gives [], otherwise URLs are
blanked out, the text is upper-cased, every regex match is stripped and
upper-cased, and each match that survives the filters is appended (there is
no per-call deduplication of the appended tokens). -/
def extract (st : ExtractionSettings) (text : String) : List String :=
  if text.data.isEmpty then []
  else
    ((regexMatches st ((stripUrls text.data).map upChar)).map
      (fun r => pyUpper (String.mk (pyStripWs r)))).filter (tokenFilter st)

/-- The extraction profile of the repository's own test suite. -/
def testSettings : ExtractionSettings :=
  { min_len := 5, max_len := 8, denylist := ["HTTPS", "UPDATE", "SORA"] }

example : extract testSettings ("I have invite 7ZDCNP and also share code Q1W2E3.")
    = ["7ZDCNP", "Q1W2E3"] := by decide

example : extract testSettings ("Use https link and code ABCD or UPDATE soon") = [] := by
  decide

example : extract testSettings ("Check https://example.com/ABC12 path or code ZX9K3 at the end")
    = ["ZX9K3"] := by decide

example : extract testSettings ("AB123 AB123") = ["AB123", "AB123"] := by decide

/-!
Token extraction of sora_invite.py (lines 70-91 and 476-488).  Its
TOKEN_PATTERN is built from the raw string with doubled backslashes, so the
compiled regex matches a literal backslash, the letter b, six uppercase
alphanumerics, a literal backslash and the letter b; the embedding transcribes
exactly that.  Unlike app.py, _extract_tokens deduplicates the surviving
tokens with a seen-set, keeping first occurrences in order.
-/

/-- One attempt of TOKEN_PATTERN at the head of the text; on success the
whole ten-character match and the remaining text are returned. -/
def soraMatchAt (l : List Char) : Option (List Char × List Char) :=
  match l with
  | '\\' :: 'b' :: rest =>
    let six := rest.take 6
    if six.length == 6 && six.all isUpperAlnum then
      match rest.drop 6 with
      | '\\' :: 'b' :: rest3 => some ('\\' :: 'b' :: (six ++ ['\\', 'b']), rest3)
      | _ => none
    else none
  | _ => none

/-- re.findall of TOKEN_PATTERN: leftmost, non-overlapping matches. -/
def soraFindallF : Nat → List Char → List (List Char)
  | 0, _ => []
  | _ + 1, [] => []
  | fuel + 1, c :: cs =>
    match soraMatchAt (c :: cs) with
    | some (m, rest) => m :: soraFindallF fuel rest
    | none => soraFindallF fuel cs

/-- re.findall of TOKEN_PATTERN over a whole text. -/
def soraFindall (l : List Char) : List (List Char) := soraFindallF l.length l

/-- sora_invite.py HARD_EXCLUDE. -/
def HARD_EXCLUDE : List String :=
  ["HTTP", "HTTPS", "JSON", "XML", "HTML", "STATUS", "ERROR", "STACK"]

/-- Python token.strip("-"): drop leading and trailing hyphens. -/
def stripDashes (l : List Char) : List Char :=
  ((l.dropWhile (fun c => c == '-')).reverse.dropWhile (fun c => c == '-')).reverse

/-- The pre-deduplication token list of _extract_tokens: every pattern match
over the upper-cased text that has a digit and a letter and no HARD_EXCLUDE
substring, with surrounding hyphens stripped, one entry per occurrence. -/
def soraRawTokens (text : String) : List (List Char) :=
  ((soraFindall (text.data.map upChar)).filter (fun token =>
      token.any Char.isDigit && token.any Char.isAlpha
        && ! (HARD_EXCLUDE.any (fun ex => decide (ex.data <:+: token))))).map stripDashes

/-- The seen-set loop at the end of _extract_tokens. -/
def dedupFirstSeenAux (seen : List (List Char)) : List (List Char) → List (List Char)
  | [] => []
  | t :: ts =>
    if seen.contains t then dedupFirstSeenAux seen ts
    else t :: dedupFirstSeenAux (t :: seen) ts

/-- Deduplication keeping the first occurrence of each token, in order. -/
def dedupFirstSeen (l : List (List Char)) : List (List Char) := dedupFirstSeenAux [] l

/-- sora_invite.py _extract_tokens. -/
def soraExtractTokens (text : String) : List (List Char) :=
  dedupFirstSeen (soraRawTokens text)

/-- Reference recursion for first-seen deduplication, stated from the
specification wording: keep the head, then deduplicate the tail with every
later copy of the head removed. -/
def dedupFS : List (List Char) → List (List Char)
  | [] => []
  | a :: as => a :: dedupFS (as.filter (fun x => ! (x == a)))
termination_by l => l.length
decreasing_by
  simp only [List.length_cons]
  exact Nat.lt_succ_of_le (List.length_filter_le _ _)

theorem dedupAux_eq_dedupFS (l : List (List Char)) :
    ∀ seen : List (List Char),
      dedupFirstSeenAux seen l = dedupFS (l.filter (fun t => ! seen.contains t)) := by
  induction l with
  | nil =>
    intro seen
    simp only [List.filter_nil]
    rw [dedupFS]
    rfl
  | cons t ts ih =>
    intro seen
    by_cases h : seen.contains t = true
    · rw [dedupFirstSeenAux]
      simp only [h, eq_self_iff_true, if_true, List.filter_cons, Bool.not_true,
        Bool.false_eq_true, if_false]
      exact ih seen
    · have h2 : seen.contains t = false := eq_false_of_ne_true h
      rw [dedupFirstSeenAux]
      simp only [h2, Bool.false_eq_true, if_false, List.filter_cons, Bool.not_false, if_true]
      rw [dedupFS, ih (t :: seen)]
      congr 1
      rw [List.filter_filter]
      refine congrArg dedupFS ?_
      apply List.filter_congr
      intro x _
      cases h1 : (x == t) <;> cases h3 : seen.contains x <;>
        simp at h1 h3 <;> simp [List.contains_cons, h1, h3]

theorem dedupFS_sublist_aux (n : Nat) :
    ∀ l : List (List Char), l.length ≤ n → List.Sublist (dedupFS l) l := by
  induction n with
  | zero =>
    intro l h
    have : l = [] := List.eq_nil_of_length_eq_zero (Nat.le_zero.mp h)
    subst this
    rw [dedupFS]
  | succ n ih =>
    intro l h
    match l with
    | [] => rw [dedupFS]
    | a :: as =>
      rw [dedupFS]
      refine List.Sublist.cons₂ a ?_
      have h1 : (as.filter (fun x => ! (x == a))).length ≤ n := by
        have := List.length_filter_le (fun x => ! (x == a)) as
        simp only [List.length_cons, Nat.succ_le_succ_iff] at h
        omega
      exact (ih _ h1).trans (List.filter_sublist as)

/-- Every list is deduplicated by dedupFS to a duplicate-free subsequence
with the same members. -/
theorem dedupFS_sublist (l : List (List Char)) : List.Sublist (dedupFS l) l :=
  dedupFS_sublist_aux l.length l le_rfl

theorem dedupFS_mem_aux (n : Nat) :
    ∀ l : List (List Char), l.length ≤ n → ∀ x ∈ l, x ∈ dedupFS l := by
  induction n with
  | zero =>
    intro l h x hx
    have : l = [] := List.eq_nil_of_length_eq_zero (Nat.le_zero.mp h)
    subst this
    cases hx
  | succ n ih =>
    intro l h x hx
    match l with
    | a :: as =>
      rw [dedupFS]
      rcases List.mem_cons.mp hx with rfl | hxs
      · exact List.mem_cons_self _ _
      · by_cases hxa : x = a
        · subst hxa; exact List.mem_cons_self _ _
        · have hmem : x ∈ as.filter (fun y => ! (y == a)) := by
            rw [List.mem_filter]
            exact ⟨hxs, by simp [hxa]⟩
          have h1 : (as.filter (fun y => ! (y == a))).length ≤ n := by
            have := List.length_filter_le (fun y => ! (y == a)) as
            simp only [List.length_cons, Nat.succ_le_succ_iff] at h
            omega
          exact List.mem_cons_of_mem _ (ih _ h1 x hmem)

theorem dedupFS_nodup_aux (n : Nat) :
    ∀ l : List (List Char), l.length ≤ n → (dedupFS l).Nodup := by
  induction n with
  | zero =>
    intro l h
    have : l = [] := List.eq_nil_of_length_eq_zero (Nat.le_zero.mp h)
    subst this
    rw [dedupFS]
    exact List.nodup_nil
  | succ n ih =>
    intro l h
    match l with
    | [] => rw [dedupFS]; exact List.nodup_nil
    | a :: as =>
      rw [dedupFS]
      have h1 : (as.filter (fun y => ! (y == a))).length ≤ n := by
        have := List.length_filter_le (fun y => ! (y == a)) as
        simp only [List.length_cons, Nat.succ_le_succ_iff] at h
        omega
      refine List.Nodup.cons ?_ (ih _ h1)
      intro hmem
      have : a ∈ as.filter (fun y => ! (y == a)) :=
        (dedupFS_sublist_aux n _ h1).subset hmem
      rw [List.mem_filter] at this
      simp at this

/-- C4, amended: sora_invite's _extract_tokens deduplicates (its output is
the canonical first-seen deduplication of its per-occurrence token list: a
duplicate-free subsequence with the same members), while app.py's
CodeExtractor.extract appends one entry per matching occurrence and so
returns a duplicate token twice. -/
theorem C4_distinct_first_seen_amended (text : String) :
    (soraExtractTokens text).Nodup
      ∧ List.Sublist (soraExtractTokens text) (soraRawTokens text)
      ∧ (∀ t, t ∈ soraExtractTokens text ↔ t ∈ soraRawTokens text)
      ∧ soraExtractTokens text = dedupFS (soraRawTokens text)
      ∧ extract testSettings ("AB123 AB123") = ["AB123", "AB123"] := by
  have hb : soraExtractTokens text = dedupFS (soraRawTokens text) := by
    unfold soraExtractTokens dedupFirstSeen
    rw [dedupAux_eq_dedupFS]
    congr 1
    simp
  refine ⟨?_, ?_, ?_, hb, by decide⟩
  · rw [hb]; exact dedupFS_nodup_aux _ _ le_rfl
  · rw [hb]; exact dedupFS_sublist _
  · intro t
    rw [hb]
    exact ⟨fun h => (dedupFS_sublist _).subset h, fun h => dedupFS_mem_aux _ _ le_rfl t h⟩

/-- C4 fails as stated for app.py CodeExtractor.extract: on a text containing
the same token twice, the returned list repeats it. -/
theorem C4_counterexample :
    extract testSettings ("AB123 AB123") = ["AB123", "AB123"]
      ∧ ¬ (extract testSettings ("AB123 AB123")).Nodup := by
  constructor
  · decide
  · decide

/-!
Event fan-out, from app.py class EventBroadcaster (lines 156-181).  A Python
queue.Queue is a maxsize plus a FIFO of pending payloads; maxsize 0 means
unbounded (put_nowait then never raises Full).  The subscriber set is the
list of client queues; publish snapshots it under the lock and then calls
put_nowait on each queue, swallowing queue.Full.
-/

/-- A Python queue.Queue holding published candidate payloads. -/
structure PyQueue where
  maxsize : Nat
  items : List CandidateRecord
deriving Repr, DecidableEq

namespace Broadcaster

/-- The queue EventBroadcaster.register creates: `queue.Queue()`, i.e. with
the default maxsize of 0. -/
def newQueue : PyQueue := { maxsize := 0, items := [] }

/-- EventBroadcaster.register appends a fresh default queue to the client
list (and hands it to the caller). -/
def register (clients : List PyQueue) : List PyQueue := clients ++ [newQueue]

/-- EventBroadcaster.unregister removes the handed-out queue. -/
def unregister (clients : List PyQueue) (i : Nat) : List PyQueue := clients.eraseIdx i

/-- queue.Queue.put_nowait: enqueue when the queue has room (maxsize 0 means
always), otherwise raise queue.Full, modelled as none. -/
def put_nowait (q : PyQueue) (p : CandidateRecord) : Option PyQueue :=
  if q.maxsize = 0 ∨ q.items.length < q.maxsize then some { q with items := q.items ++ [p] }
  else none

/-- One client's treatment inside EventBroadcaster.publish: put_nowait with
the queue.Full exception swallowed (the message is dropped for that client). -/
def deliver (q : PyQueue) (p : CandidateRecord) : PyQueue :=
  match put_nowait q p with
  | some q2 => q2
  | none => q

/-- EventBroadcaster.publish: every currently registered client receives the
payload via the non-blocking put_nowait. -/
def publish (clients : List PyQueue) (p : CandidateRecord) : List PyQueue :=
  clients.map (fun q => deliver q p)

/-- A queue is bounded when its maxsize is positive (Python queue semantics:
maxsize <= 0 means an infinite queue). -/
def bounded (q : PyQueue) : Prop := q.maxsize ≠ 0

instance (q : PyQueue) : Decidable (bounded q) := by
  unfold bounded; infer_instance

end Broadcaster

/-- C8 fails as stated: register creates queue.Queue() with the default
maxsize 0, which is unbounded, not bounded; concretely, even after a thousand
undrained publishes the freshly registered queue accepts the next payload
rather than ever reporting Full. -/
theorem C8_counterexample :
    Broadcaster.register [] = [Broadcaster.newQueue]
      ∧ ¬ Broadcaster.bounded Broadcaster.newQueue
      ∧ (∀ items : List CandidateRecord,
          Broadcaster.put_nowait { maxsize := 0, items := items } sampleRecord
            = some { maxsize := 0, items := items ++ [sampleRecord] }) := by
  refine ⟨rfl, by decide, ?_⟩
  intro items
  simp [Broadcaster.put_nowait]

/-- C8, amended: register creates one (unbounded) inbound queue per observer,
and publish enqueues to every currently registered subscriber with the
non-blocking put_nowait: every queue created by register (maxsize 0) receives
the payload, and a bounded queue that is full would have the message dropped
for it alone, the publisher never blocking. -/
theorem C8_publish_nonblocking (clients : List PyQueue) (p : CandidateRecord)
    (h : ∀ q ∈ clients, q.maxsize = 0) :
    Broadcaster.publish clients p
        = clients.map (fun q => { q with items := q.items ++ [p] })
      ∧ (∀ q : PyQueue, Broadcaster.bounded q → q.maxsize ≤ q.items.length →
          Broadcaster.deliver q p = q)
      ∧ Broadcaster.publish (Broadcaster.register clients) p
        = (Broadcaster.register clients).map (fun q => { q with items := q.items ++ [p] }) := by
  have hdeliver : ∀ q : PyQueue, q.maxsize = 0 →
      Broadcaster.deliver q p = { q with items := q.items ++ [p] } := by
    intro q hq
    simp [Broadcaster.deliver, Broadcaster.put_nowait, hq]
  refine ⟨?_, ?_, ?_⟩
  · exact List.map_congr_left (fun q hq => hdeliver q (h q hq))
  · intro q hb hfull
    have hms : ¬ (q.maxsize = 0 ∨ q.items.length < q.maxsize) := by
      push_neg
      exact ⟨hb, by omega⟩
    simp [Broadcaster.deliver, Broadcaster.put_nowait, hms]
  · refine List.map_congr_left (fun q hq => ?_)
    rcases List.mem_append.mp hq with hq1 | hq2
    · exact hdeliver q (h q hq1)
    · have : q = Broadcaster.newQueue := by simpa using hq2
      subst this
      exact hdeliver _ rfl

theorem C8_publish_nonblocking_witness :
    Broadcaster.publish [Broadcaster.newQueue] sampleRecord
        = [Broadcaster.newQueue].map (fun q => { q with items := q.items ++ [sampleRecord] })
      ∧ (∀ q : PyQueue, Broadcaster.bounded q → q.maxsize ≤ q.items.length →
          Broadcaster.deliver q sampleRecord = q)
      ∧ Broadcaster.publish (Broadcaster.register [Broadcaster.newQueue]) sampleRecord
        = (Broadcaster.register [Broadcaster.newQueue]).map
            (fun q => { q with items := q.items ++ [sampleRecord] }) :=
  C8_publish_nonblocking [Broadcaster.newQueue] sampleRecord (by decide)

/-!
Per-source scheduling of sora_invite.py: class SourceSpec (lines 189-212),
the body of the polling loop _poll_sources (lines 547-610, one source's turn
per step, with the fetch outcome supplied as an input), and the health
reporting of healthz / codes_json (lines 649-689).
-/

/-- Python `str.lower` over a whole string (ASCII model). -/
def pyLower (s : String) : String :=
  String.mk (s.data.map lowChar)

/-- Mutable scheduling state of one SourceSpec. -/
structure SourceState where
  name : String
  enabled : Bool
  failure_threshold : Nat
  cooldown_seconds : Nat
  failure_count : Nat
  cooldown_until : Option Nat
  disabled_reason : Option String
  last_success : Option Nat
  last_error : Option Nat
deriving Repr, DecidableEq

/-- The try/except around `source.fetcher(config)` in _poll_sources: success
clears the failure bookkeeping; failure increments failure_count and, once it
reaches failure_threshold, starts a cooldown of cooldown_seconds. -/
def fetchAttempt (now : Nat) (fetchOk : Bool) (s : SourceState) : SourceState :=
  if fetchOk then
    { s with last_success := some now, last_error := none,
             failure_count := 0, disabled_reason := none }
  else
    let s2 := { s with last_error := some now, failure_count := s.failure_count + 1 }
    if s2.failure_threshold ≤ s2.failure_count then
      { s2 with cooldown_until := some (now + s2.cooldown_seconds),
                disabled_reason := some ("cooldown") }
    else { s2 with disabled_reason := some ("error") }

/-- One source's turn inside a _poll_sources cycle; the returned flag says
whether the fetcher was invoked.  A disabled or env-disabled source is
skipped; a source whose cooldown has not elapsed is skipped; an elapsed
cooldown is cleared (and failure_count reset) before fetching. -/
def pollStep (now : Nat) (disabledSet : List String) (fetchOk : Bool)
    (s : SourceState) : SourceState × Bool :=
  if ! s.enabled then (s, false)
  else if disabledSet.contains (pyLower s.name) then
    ({ s with disabled_reason := some ("disabled-by-env") }, false)
  else
    let s1 := if s.disabled_reason == some ("disabled-by-env")
      then { s with disabled_reason := none } else s
    match s1.cooldown_until with
    | some t =>
      if now < t then ({ s1 with disabled_reason := some ("cooldown") }, false)
      else
        (fetchAttempt now fetchOk
          { s1 with cooldown_until := none, failure_count := 0, disabled_reason := none },
          true)
    | none => (fetchAttempt now fetchOk s1, true)

/-- healthz / codes_json "active": enabled, not cooling down, not disabled by
the environment. -/
def healthzActive (disabledSet : List String) (s : SourceState) : Bool :=
  s.enabled && s.cooldown_until == none && ! disabledSet.contains (pyLower s.name)

/-- healthz "paused": disabled by environment, or not enabled, or a cooldown
timestamp is set. -/
def healthzPaused (disabledSet : List String) (s : SourceState) : Bool :=
  disabledSet.contains (pyLower s.name) || ! s.enabled || ! (s.cooldown_until == none)

/-- C7: once consecutive failures reach the threshold the source enters
cooldown until now + cooldown_seconds and is flagged accordingly; while the
cooldown has not elapsed the source is never fetched and healthz reports it
paused and not active; once it elapses, the turn clears the cooldown, resets
failure_count (to 0 on a successful fetch, so 1 after a new failure) and
fetches again. -/
theorem C7_cooldown_lifecycle (now : Nat) (ds : List String) (s : SourceState)
    (henabled : s.enabled = true)
    (hds : ds.contains (pyLower s.name) = false) :
    (s.cooldown_until = none → s.failure_threshold ≤ s.failure_count + 1 →
      ((pollStep now ds false s).1.cooldown_until = some (now + s.cooldown_seconds)
        ∧ (pollStep now ds false s).1.disabled_reason = some ("cooldown")
        ∧ (pollStep now ds false s).1.failure_count = s.failure_count + 1))
    ∧ (∀ t, s.cooldown_until = some t → now < t →
        (∀ ok, (pollStep now ds ok s).2 = false
          ∧ (pollStep now ds ok s).1.cooldown_until = some t
          ∧ (pollStep now ds ok s).1.failure_count = s.failure_count)
        ∧ healthzPaused ds s = true ∧ healthzActive ds s = false)
    ∧ (∀ t, s.cooldown_until = some t → t ≤ now →
        ∀ ok, (pollStep now ds ok s).2 = true
          ∧ (ok = true → (pollStep now ds ok s).1.failure_count = 0
              ∧ (pollStep now ds ok s).1.cooldown_until = none)
          ∧ (ok = false → (pollStep now ds ok s).1.failure_count = 1)) := by
  have hds2 : ¬ pyLower s.name ∈ ds := by simpa using hds
  refine ⟨?_, ?_, ?_⟩
  · intro hcd hthr
    by_cases hdr : (s.disabled_reason == some ("disabled-by-env")) = true <;>
      simp [pollStep, henabled, hds, hds2, hdr, hcd, fetchAttempt, hthr]
  · intro t hcd hlt
    constructor
    · intro ok
      by_cases hdr : (s.disabled_reason == some ("disabled-by-env")) = true <;>
        simp [pollStep, henabled, hds, hds2, hdr, hcd, hlt]
    · constructor
      · simp [healthzPaused, hcd]
      · simp [healthzActive, hcd]
  · intro t hcd hge ok
    have hnlt : ¬ now < t := by omega
    cases ok <;>
      by_cases hdr : (s.disabled_reason == some ("disabled-by-env")) = true <;>
        simp [pollStep, henabled, hds, hds2, hdr, hcd, hnlt, fetchAttempt] <;>
          split_ifs <;> rfl

/-- A concrete source one failure away from its threshold. -/
def sampleSource : SourceState :=
  { name := "Hacker News", enabled := true, failure_threshold := 4,
    cooldown_seconds := 600, failure_count := 3, cooldown_until := none,
    disabled_reason := some ("error"), last_success := none, last_error := some 90 }

theorem C7_cooldown_lifecycle_witness :
    ((pollStep 100 [] false sampleSource).1.cooldown_until = some (100 + 600)
        ∧ (pollStep 100 [] false sampleSource).1.disabled_reason = some ("cooldown")
        ∧ (pollStep 100 [] false sampleSource).1.failure_count = 3 + 1)
      ∧ (∀ t, sampleSource.cooldown_until = some t → 100 < t →
          (∀ ok, (pollStep 100 [] ok sampleSource).2 = false
            ∧ (pollStep 100 [] ok sampleSource).1.cooldown_until = some t
            ∧ (pollStep 100 [] ok sampleSource).1.failure_count = sampleSource.failure_count)
          ∧ healthzPaused [] sampleSource = true ∧ healthzActive [] sampleSource = false) := by
  have h := C7_cooldown_lifecycle 100 [] sampleSource (by decide) (by decide)
  exact ⟨by simpa using h.1 (by decide) (by decide), h.2.1⟩

/-!
The scheduler's item processing, from app.py process_items (lines 418-431)
with build_candidate_record (402-415) and CodeExtractor.build_snippet
(137-147).  The repository is the in-memory backend (the default store);
publish and notify are recorded as the lists of candidates handed to the
broadcaster and to the notifier, in call order.
-/

/-- One fetched content item as normalized by an adapter. -/
structure ContentItem where
  title : String
  text : String
  url : String
  source_id : Option String
deriving Repr, DecidableEq

/-- Python str.find of a sublist: index of its first occurrence. -/
def indexOfSub : List Char → List Char → Option Nat
  | _, [] => some 0
  | [], _ :: _ => none
  | h :: t, s :: ss =>
    if List.isPrefixOf (s :: ss) (h :: t) then some 0
    else (indexOfSub t (s :: ss)).map (fun i => i + 1)

/-- re.sub of single spaces for whitespace runs (`\s+`). -/
def collapseWsF : Nat → List Char → List Char
  | 0, _ => []
  | _ + 1, [] => []
  | fuel + 1, c :: cs =>
    if c.isWhitespace then ' ' :: collapseWsF fuel (cs.dropWhile Char.isWhitespace)
    else c :: collapseWsF fuel cs

/-- re.sub of single spaces for whitespace runs over a whole text. -/
def collapseWs (l : List Char) : List Char := collapseWsF l.length l

/-- app.py CodeExtractor.build_snippet: a window of `context` characters on
each side of the first case-insensitive occurrence of the code (or around the
text midpoint when absent), stripped, with whitespace runs collapsed. -/
def build_snippet (text code : String) (context : Nat) : String :=
  if text.data.isEmpty then code
  else
    let upper := text.data.map upChar
    let index :=
      match indexOfSub upper (code.data.map upChar) with
      | some i => i
      | none => max 0 (text.data.length / 2)
    let start := index - context
    let stop := min text.data.length (index + code.data.length + context)
    String.mk (collapseWs (pyStripWs ((text.data.drop start).take (stop - start))))

/-- app.py build_candidate_record: uppercased code, snippet from the item's
text, discovery timestamp now, flags cleared. -/
def build_candidate_record (code source : String) (item : ContentItem)
    (now : String) : CandidateRecord :=
  { code := pyUpper code, source := source, source_title := item.title,
    url := item.url, example_text := build_snippet item.text code 120,
    discovered_at := now, tried := 0, hidden := 0 }

/-- The observable outcome of process_items: the repository afterwards, the
insertion count, and the candidates handed to Broadcaster.publish and to
Notifier.notify, in call order. -/
structure ProcessResult where
  store : Mem.Store
  inserted : Nat
  published : List CandidateRecord
  notified : List CandidateRecord
deriving Repr, DecidableEq

/-- The inner loop of process_items over one item's extracted codes: only a
true add_candidate result increments the counter and triggers publish and
notify. -/
def processCodes (adapterName now : String) (item : ContentItem)
    (st : Mem.Store) : List String → ProcessResult
  | [] => { store := st, inserted := 0, published := [], notified := [] }
  | code :: rest =>
    let candidate := build_candidate_record code (item.source_id.getD adapterName) item now
    let add := Mem.add_candidate st candidate
    if add.1 then
      let r := processCodes adapterName now item add.2 rest
      { r with inserted := r.inserted + 1,
               published := candidate :: r.published,
               notified := candidate :: r.notified }
    else
      processCodes adapterName now item add.2 rest

/-- app.py process_items: extract each item's title-plus-text and offer every
code to the repository. -/
def process_items (es : ExtractionSettings) (adapterName now : String)
    (st : Mem.Store) : List ContentItem → ProcessResult
  | [] => { store := st, inserted := 0, published := [], notified := [] }
  | item :: rest =>
    let combined := String.mk (pyStripWs (item.title.data ++ '\n' :: item.text.data))
    let r1 := processCodes adapterName now item st (extract es combined)
    let r2 := process_items es adapterName now r1.store rest
    { store := r2.store, inserted := r1.inserted + r2.inserted,
      published := r1.published ++ r2.published,
      notified := r1.notified ++ r2.notified }

theorem containsKey_append (l1 l2 : Mem.Store) (k : String) :
    Mem.containsKey (l1 ++ l2) k = (Mem.containsKey l1 k || Mem.containsKey l2 k) := by
  simp [Mem.containsKey, List.any_append]

theorem processCodes_spec (an now : String) (item : ContentItem) :
    ∀ (codes : List String) (st : Mem.Store),
      ((processCodes an now item st codes).notified
          = (processCodes an now item st codes).published)
      ∧ ((processCodes an now item st codes).inserted
          = (processCodes an now item st codes).published.length)
      ∧ (∀ k : String, Mem.containsKey (processCodes an now item st codes).store k
          = (Mem.containsKey st k
              || (processCodes an now item st codes).published.any
                   (fun c => pyUpper c.code == k)))
      ∧ (∀ c ∈ (processCodes an now item st codes).published,
          Mem.containsKey st (pyUpper c.code) = false)
      ∧ ((processCodes an now item st codes).published.map
           (fun c => pyUpper c.code)).Nodup := by
  intro codes
  induction codes with
  | nil =>
    intro st
    refine ⟨rfl, rfl, ?_, ?_, ?_⟩ <;> simp [processCodes]
  | cons code rest ih =>
    intro st
    have hcand : (build_candidate_record code (item.source_id.getD an) item now).code
        = pyUpper code := rfl
    by_cases hc :
        Mem.containsKey st
          (pyUpper (build_candidate_record code (item.source_id.getD an) item now).code)
          = true
    · have hstep : processCodes an now item st (code :: rest)
          = processCodes an now item st rest := by
        simp [processCodes, Mem.add_candidate, hc]
      rw [hstep]
      exact ih st
    · have hc2 : Mem.containsKey st
          (pyUpper (build_candidate_record code (item.source_id.getD an) item now).code)
          = false := eq_false_of_ne_true hc
      have hstep : processCodes an now item st (code :: rest)
          = { processCodes an now item
                (st ++ [(pyUpper (build_candidate_record code (item.source_id.getD an) item now).code,
                          build_candidate_record code (item.source_id.getD an) item now)]) rest
              with
              inserted := (processCodes an now item
                (st ++ [(pyUpper (build_candidate_record code (item.source_id.getD an) item now).code,
                          build_candidate_record code (item.source_id.getD an) item now)]) rest).inserted + 1,
              published := build_candidate_record code (item.source_id.getD an) item now
                :: (processCodes an now item
                (st ++ [(pyUpper (build_candidate_record code (item.source_id.getD an) item now).code,
                          build_candidate_record code (item.source_id.getD an) item now)]) rest).published,
              notified := build_candidate_record code (item.source_id.getD an) item now
                :: (processCodes an now item
                (st ++ [(pyUpper (build_candidate_record code (item.source_id.getD an) item now).code,
                          build_candidate_record code (item.source_id.getD an) item now)]) rest).notified } := by
        simp [processCodes, Mem.add_candidate, hc2]
      set cand := build_candidate_record code (item.source_id.getD an) item now with hcdef
      set st2 := st ++ [(pyUpper cand.code, cand)] with hst2
      obtain ⟨ih1, ih2, ih3, ih4, ih5⟩ := ih st2
      have hkey2 : ∀ k : String, Mem.containsKey st2 k
          = (Mem.containsKey st k || (pyUpper cand.code == k)) := by
        intro k
        rw [hst2, containsKey_append]
        simp [Mem.containsKey]
      have hcandmem : Mem.containsKey st2 (pyUpper cand.code) = true := by
        rw [hkey2]
        simp
      rw [hstep]
      refine ⟨?_, ?_, ?_, ?_, ?_⟩
      · exact congrArg (fun l => cand :: l) ih1
      · simp [ih2]
      · intro k
        simp only [List.any_cons]
        rw [ih3 k, hkey2 k]
        cases hmemk : Mem.containsKey st k <;>
          cases hpk : (pyUpper cand.code == k) <;> simp [hmemk, hpk]
      · intro c hcmem
        rcases List.mem_cons.mp hcmem with rfl | hctail
        · exact hc2
        · have h4 := ih4 c hctail
          rw [hkey2] at h4
          exact (Bool.or_eq_false_iff.mp h4).1
      · simp only [List.map_cons, List.nodup_cons]
        refine ⟨?_, ih5⟩
        intro hmem
        rw [List.mem_map] at hmem
        obtain ⟨c, hcmem, hck⟩ := hmem
        have h4 := ih4 c hcmem
        rw [hck, hcandmem] at h4
        cases h4

theorem process_items_spec (es : ExtractionSettings) (an now : String) :
    ∀ (items : List ContentItem) (st : Mem.Store),
      ((process_items es an now st items).notified
          = (process_items es an now st items).published)
      ∧ ((process_items es an now st items).inserted
          = (process_items es an now st items).published.length)
      ∧ (∀ k : String, Mem.containsKey (process_items es an now st items).store k
          = (Mem.containsKey st k
              || (process_items es an now st items).published.any
                   (fun c => pyUpper c.code == k)))
      ∧ (∀ c ∈ (process_items es an now st items).published,
          Mem.containsKey st (pyUpper c.code) = false)
      ∧ ((process_items es an now st items).published.map
           (fun c => pyUpper c.code)).Nodup := by
  intro items
  induction items with
  | nil =>
    intro st
    refine ⟨rfl, rfl, ?_, ?_, ?_⟩ <;> simp [process_items]
  | cons item rest ih =>
    intro st
    obtain ⟨p1, p2, p3, p4, p5⟩ :=
      processCodes_spec an now item
        (extract es (String.mk (pyStripWs (item.title.data ++ '\n' :: item.text.data)))) st
    obtain ⟨q1, q2, q3, q4, q5⟩ :=
      ih (processCodes an now item st
        (extract es (String.mk (pyStripWs (item.title.data ++ '\n' :: item.text.data))))).store
    have hstep : process_items es an now st (item :: rest)
        = { store := (process_items es an now
              (processCodes an now item st
                (extract es (String.mk (pyStripWs (item.title.data ++ '\n' :: item.text.data))))).store
              rest).store,
            inserted := (processCodes an now item st
                (extract es (String.mk (pyStripWs (item.title.data ++ '\n' :: item.text.data))))).inserted
              + (process_items es an now
                  (processCodes an now item st
                    (extract es (String.mk (pyStripWs (item.title.data ++ '\n' :: item.text.data))))).store
                  rest).inserted,
            published := (processCodes an now item st
                (extract es (String.mk (pyStripWs (item.title.data ++ '\n' :: item.text.data))))).published
              ++ (process_items es an now
                  (processCodes an now item st
                    (extract es (String.mk (pyStripWs (item.title.data ++ '\n' :: item.text.data))))).store
                  rest).published,
            notified := (processCodes an now item st
                (extract es (String.mk (pyStripWs (item.title.data ++ '\n' :: item.text.data))))).notified
              ++ (process_items es an now
                  (processCodes an now item st
                    (extract es (String.mk (pyStripWs (item.title.data ++ '\n' :: item.text.data))))).store
                  rest).notified } := by
      simp [process_items]
    rw [hstep]
    set codes := extract es (String.mk (pyStripWs (item.title.data ++ '\n' :: item.text.data)))
      with hcodes
    set r1 := processCodes an now item st codes with hr1
    set r2 := process_items es an now r1.store rest with hr2
    have hmem1 : ∀ c ∈ r1.published, Mem.containsKey r1.store (pyUpper c.code) = true := by
      intro c hcm
      rw [p3]
      have : r1.published.any (fun x => pyUpper x.code == pyUpper c.code) = true := by
        rw [List.any_eq_true]
        exact ⟨c, hcm, by simp⟩
      simp [this]
    refine ⟨?_, ?_, ?_, ?_, ?_⟩
    · rw [p1, q1]
    · rw [p2, q2, List.length_append]
    · intro k
      rw [q3 k, p3 k, List.any_append]
      cases h1 : Mem.containsKey st k <;>
        cases h2 : r1.published.any (fun c => pyUpper c.code == k) <;>
          simp [h1, h2]
    · intro c hcm
      rcases List.mem_append.mp hcm with hm1 | hm2
      · exact p4 c hm1
      · have h4 := q4 c hm2
        rw [p3] at h4
        exact (Bool.or_eq_false_iff.mp h4).1
    · rw [List.map_append]
      rw [List.nodup_append]
      refine ⟨p5, q5, ?_⟩
      intro k hk1 hk2
      rw [List.mem_map] at hk1 hk2
      obtain ⟨c1, hc1m, hc1e⟩ := hk1
      obtain ⟨c2, hc2m, hc2e⟩ := hk2
      have hA := hmem1 c1 hc1m
      have hB := q4 c2 hc2m
      rw [hc1e] at hA
      rw [hc2e] at hB
      rw [hB] at hA
      cases hA

/-- C2: in process_items the broadcaster and notifier receive exactly the
candidates whose add_candidate returned true (the calls sit in that branch of
app.py lines 427-430): publish and notify see the same list, the insertion
count equals its length, a code is stored afterwards iff it was stored before
or published now, nothing already stored is ever re-published, and the
published codes are pairwise distinct, both within one run and across a
subsequent run started from the resulting repository. -/
theorem C2_publish_iff_newly_inserted (es : ExtractionSettings) (an now now2 : String)
    (st : Mem.Store) (items items2 : List ContentItem) :
    ((process_items es an now st items).notified
        = (process_items es an now st items).published)
      ∧ ((process_items es an now st items).inserted
          = (process_items es an now st items).published.length)
      ∧ (∀ k : String, Mem.containsKey (process_items es an now st items).store k
          = (Mem.containsKey st k
              || (process_items es an now st items).published.any
                   (fun c => pyUpper c.code == k)))
      ∧ (∀ c ∈ (process_items es an now st items).published,
          Mem.containsKey st (pyUpper c.code) = false
            ∧ Mem.containsKey (process_items es an now st items).store (pyUpper c.code) = true)
      ∧ (((process_items es an now st items).published.map
            (fun c => pyUpper c.code)).Nodup)
      ∧ (∀ c2 ∈ (process_items es an now2
              (process_items es an now st items).store items2).published,
          ∀ c ∈ (process_items es an now st items).published,
            pyUpper c2.code ≠ pyUpper c.code) := by
  obtain ⟨p1, p2, p3, p4, p5⟩ := process_items_spec es an now items st
  obtain ⟨q1, q2, q3, q4, q5⟩ :=
    process_items_spec es an now2 items2 (process_items es an now st items).store
  have hmem1 : ∀ c ∈ (process_items es an now st items).published,
      Mem.containsKey (process_items es an now st items).store (pyUpper c.code) = true := by
    intro c hcm
    rw [p3]
    have : (process_items es an now st items).published.any
        (fun x => pyUpper x.code == pyUpper c.code) = true := by
      rw [List.any_eq_true]
      exact ⟨c, hcm, by simp⟩
    simp [this]
  refine ⟨p1, p2, p3, ?_, p5, ?_⟩
  · intro c hcm
    exact ⟨p4 c hcm, hmem1 c hcm⟩
  · intro c2 hc2m c hcm heq
    have hB := q4 c2 hc2m
    rw [heq, hmem1 c hcm] at hB
    cases hB

theorem upChar_eq_self_of_upperAlnum (c : Char) (h : isUpperAlnum c = true) :
    upChar c = c := by
  unfold isUpperAlnum at h
  rw [Bool.or_eq_true, decide_eq_true_iff, decide_eq_true_iff] at h
  unfold upChar
  have hA : ('A' : Char).toNat = 65 := by decide
  have hZ : ('Z' : Char).toNat = 90 := by decide
  have h0 : ('0' : Char).toNat = 48 := by decide
  have h9 : ('9' : Char).toNat = 57 := by decide
  have ha : ('a' : Char).toNat = 97 := by decide
  have hcond : ¬ ('a' ≤ c ∧ c ≤ 'z') := by
    intro hlz
    have hge := (char_le_iff_toNat _ _).mp hlz.1
    rw [ha] at hge
    rcases h with h1 | h1
    · have := (char_le_iff_toNat _ _).mp h1.2
      rw [hZ] at this
      omega
    · have := (char_le_iff_toNat _ _).mp h1.2
      rw [h9] at this
      omega
  simp [hcond]

theorem isWhitespace_eq_false_of_upperAlnum (c : Char) (h : isUpperAlnum c = true) :
    c.isWhitespace = false := by
  unfold isUpperAlnum at h
  rw [Bool.or_eq_true, decide_eq_true_iff, decide_eq_true_iff] at h
  by_contra hws
  rw [Bool.not_eq_false] at hws
  unfold Char.isWhitespace at hws
  have hval : c = ' ' ∨ c = '\t' ∨ c = '\r' ∨ c = '\n' := by
    simpa [Char.isWhitespace, or_assoc] using hws
  rcases hval with rfl | rfl | rfl | rfl <;> revert h <;> decide

theorem space_not_mem_of_all_wordChar (r : List Char) (h : r.all isWordChar = true) :
    ' ' ∈ r → False := by
  intro hmem
  have := (List.all_eq_true.mp h) ' ' hmem
  revert this
  decide

/-- Fuel does not matter for stripUrlsF once it covers the text length. -/
theorem stripUrlsF_congr : ∀ (f1 f2 : Nat) (l : List Char),
    l.length ≤ f1 → l.length ≤ f2 → stripUrlsF f1 l = stripUrlsF f2 l := by
  intro f1
  induction f1 with
  | zero =>
    intro f2 l h1 _
    have : l = [] := List.eq_nil_of_length_eq_zero (Nat.le_zero.mp h1)
    subst this
    cases f2 <;> rfl
  | succ n ih =>
    intro f2 l h1 h2
    cases l with
    | nil => cases f2 <;> rfl
    | cons c cs =>
      cases f2 with
      | zero => simp at h2
      | succ k =>
        simp only [List.length_cons, Nat.succ_le_succ_iff] at h1 h2
        by_cases hu : isUrlStart (c :: cs) = true
        · simp only [stripUrlsF, hu, if_true]
          congr 1
          have hlen : ((((c :: cs).drop
              (if startsWithCI ("https://".data) (c :: cs) then 8 else 7)).dropWhile
                (fun x => ! x.isWhitespace)).length) ≤ cs.length := by
            have hsfx := List.dropWhile_suffix
              (p := fun x => ! x.isWhitespace)
              (l := (c :: cs).drop (if startsWithCI ("https://".data) (c :: cs) then 8 else 7))
            have hle1 := hsfx.length_le
            have hle2 : ((c :: cs).drop
                (if startsWithCI ("https://".data) (c :: cs) then 8 else 7)).length
                ≤ cs.length := by
              rw [List.length_drop]
              simp only [List.length_cons]
              split_ifs <;> omega
            omega
          exact ih _ _ (le_trans hlen h1) (le_trans hlen h2)
        · have hu2 := eq_false_of_ne_true hu
          simp only [stripUrlsF, hu2, Bool.false_eq_true, if_false]
          congr 1
          exact ih _ _ h1 h2

/-- A whitespace-free prefix of the URL-stripped text is a prefix of the
original text. -/
theorem stripUrlsF_prefix_noSpace : ∀ (fuel : Nat) (l seg : List Char),
    (' ' ∈ seg → False) → seg <+: stripUrlsF fuel l → seg <+: l := by
  intro fuel
  induction fuel with
  | zero =>
    intro l seg _ hp
    have : seg = [] := List.prefix_nil.mp (by simpa [stripUrlsF] using hp)
    subst this
    exact List.nil_prefix
  | succ n ih =>
    intro l seg hs hp
    cases l with
    | nil =>
      have : seg = [] := List.prefix_nil.mp (by simpa [stripUrlsF] using hp)
      subst this
      exact List.nil_prefix
    | cons c cs =>
      by_cases hu : isUrlStart (c :: cs) = true
      · simp only [stripUrlsF, hu, if_true] at hp
        rcases List.prefix_cons_iff.mp hp with rfl | ⟨t, rfl, _⟩
        · exact List.nil_prefix
        · exact absurd (List.mem_cons_self _ _) (fun hm => hs hm)
      · have hu2 := eq_false_of_ne_true hu
        simp only [stripUrlsF, hu2, Bool.false_eq_true, if_false] at hp
        rcases List.prefix_cons_iff.mp hp with rfl | ⟨t, rfl, ht⟩
        · exact List.nil_prefix
        · have hs2 : ' ' ∈ t → False := fun hm => hs (List.mem_cons_of_mem _ hm)
          exact List.cons_prefix_cons.mpr ⟨rfl, ih cs t hs2 ht⟩

/-- A whitespace-free infix of the URL-stripped text is an infix of the
original text: the characters a URL span contributes are single spaces. -/
theorem stripUrlsF_infix_noSpace : ∀ (fuel : Nat) (l seg : List Char),
    (' ' ∈ seg → False) → seg <:+: stripUrlsF fuel l → seg <:+: l := by
  intro fuel
  induction fuel with
  | zero =>
    intro l seg _ hp
    rcases hp with ⟨s, t, hst⟩
    have : stripUrlsF 0 l = [] := rfl
    rw [this] at hst
    have : seg = [] := by
      have := List.append_eq_nil.mp hst
      exact (List.append_eq_nil.mp this.1).2
    subst this
    exact List.nil_infix
  | succ n ih =>
    intro l seg hs hp
    cases l with
    | nil =>
      have h0 : stripUrlsF (n + 1) ([] : List Char) = [] := rfl
      rw [h0] at hp
      rcases hp with ⟨s, t, hst⟩
      have : seg = [] := by
        have := List.append_eq_nil.mp hst
        exact (List.append_eq_nil.mp this.1).2
      subst this
      exact List.nil_infix
    | cons c cs =>
      by_cases hu : isUrlStart (c :: cs) = true
      · simp only [stripUrlsF, hu, if_true] at hp
        rcases List.infix_cons_iff.mp hp with hpre | hinf
        · rcases List.prefix_cons_iff.mp hpre with rfl | ⟨t, rfl, _⟩
          · exact List.nil_infix
          · exact absurd (List.mem_cons_self _ _) (fun hm => hs hm)
        · have hseg := ih _ seg hs hinf
          have hsfx : (((c :: cs).drop
              (if startsWithCI ("https://".data) (c :: cs) then 8 else 7)).dropWhile
                (fun x => ! x.isWhitespace)) <:+ (c :: cs) :=
            (List.dropWhile_suffix _).trans (List.drop_suffix _ _)
          exact hseg.trans hsfx.isInfix
      · have hu2 := eq_false_of_ne_true hu
        simp only [stripUrlsF, hu2, Bool.false_eq_true, if_false] at hp
        rcases List.infix_cons_iff.mp hp with hpre | hinf
        · rcases List.prefix_cons_iff.mp hpre with rfl | ⟨t, rfl, ht⟩
          · exact List.nil_infix
          · have hs2 : ' ' ∈ t → False := fun hm => hs (List.mem_cons_of_mem _ hm)
            exact (List.cons_prefix_cons.mpr ⟨rfl, stripUrlsF_prefix_noSpace n cs t hs2 ht⟩).isInfix
        · exact List.infix_cons (ih cs seg hs hinf)

/-- Every word run is a nonempty all-word-character infix of the text. -/
theorem wordRunsF_spec : ∀ (fuel : Nat) (l r : List Char), r ∈ wordRunsF fuel l →
    r ≠ [] ∧ r.all isWordChar = true ∧ r <:+: l := by
  intro fuel
  induction fuel with
  | zero => intro l r hr; cases hr
  | succ n ih =>
    intro l r hr
    cases l with
    | nil => cases hr
    | cons c cs =>
      by_cases hw : isWordChar c = true
      · simp only [wordRunsF, hw, if_true] at hr
        rcases List.mem_cons.mp hr with rfl | htail
        · refine ⟨by simp, ?_, ?_⟩
          · rw [List.all_cons, hw, Bool.true_and, List.all_eq_true]
            exact fun x hx => List.mem_takeWhile_imp hx
          · exact (List.cons_prefix_cons.mpr ⟨rfl, List.takeWhile_prefix _⟩).isInfix
        · obtain ⟨h1, h2, h3⟩ := ih _ r htail
          exact ⟨h1, h2, h3.trans ((List.dropWhile_suffix _).isInfix.trans
            (List.infix_cons (List.infix_refl cs)))⟩
      · have hw2 := eq_false_of_ne_true hw
        simp only [wordRunsF, hw2, Bool.false_eq_true, if_false] at hr
        obtain ⟨h1, h2, h3⟩ := ih _ r hr
        exact ⟨h1, h2, List.infix_cons h3⟩

theorem dropWhile_ws_eq_self (r : List Char)
    (h : ∀ c ∈ r, Char.isWhitespace c = false) :
    r.dropWhile Char.isWhitespace = r := by
  cases r with
  | nil => rfl
  | cons c cs => simp [List.dropWhile_cons, h c (List.mem_cons_self _ _)]

theorem pyStripWs_eq_self (r : List Char) (h : r.all isUpperAlnum = true) :
    pyStripWs r = r := by
  have hws : ∀ c ∈ r, Char.isWhitespace c = false := fun c hc =>
    isWhitespace_eq_false_of_upperAlnum c (List.all_eq_true.mp h c hc)
  unfold pyStripWs
  rw [dropWhile_ws_eq_self r hws]
  rw [dropWhile_ws_eq_self r.reverse (fun c hc => hws c (List.mem_reverse.mp hc))]
  exact List.reverse_reverse r

theorem map_upChar_eq_self (r : List Char) (h : r.all isUpperAlnum = true) :
    r.map upChar = r := by
  have := List.map_congr_left (l := r) (f := upChar) (g := id)
    (fun a ha => upChar_eq_self_of_upperAlnum a (List.all_eq_true.mp h a ha))
  rw [this, List.map_id]

/-- Every token extract returns is literally one of the all-[A-Z0-9] word
runs of the URL-stripped upper-cased text. -/
theorem extract_mem_structure (st : ExtractionSettings) (text : String) (t : String)
    (ht : t ∈ extract st text) :
    ∃ r, r ∈ wordRuns ((stripUrls text.data).map upChar)
      ∧ t = String.mk r ∧ r ≠ [] ∧ r.all isUpperAlnum = true := by
  by_cases he : text.data.isEmpty = true
  · rw [extract, if_pos he] at ht
    cases ht
  · rw [extract, if_neg (by simp [he])] at ht
    rw [List.mem_filter] at ht
    obtain ⟨r, hr, hf⟩ := List.mem_map.mp ht.1
    rw [regexMatches, List.mem_filter] at hr
    have hall : r.all isUpperAlnum = true := by
      have := hr.2
      rw [Bool.and_eq_true] at this
      exact this.1
    have hne : r ≠ [] := (wordRunsF_spec _ _ r hr.1).1
    refine ⟨r, hr.1, ?_, hne, hall⟩
    rw [← hf, pyStripWs_eq_self r hall]
    unfold pyUpper
    rw [show (String.mk r).data = r from rfl, map_upChar_eq_self r hall]

/-- A prefix avoiding the separator element stays within the left part. -/
theorem prefix_append_mid {m : Char} : ∀ (A B seg : List Char), (m ∈ seg → False) →
    seg <+: (A ++ m :: B) → seg <+: A := by
  intro A
  induction A with
  | nil =>
    intro B seg hm hp
    rcases List.prefix_cons_iff.mp hp with rfl | ⟨t, rfl, _⟩
    · exact List.nil_prefix
    · exact absurd (List.mem_cons_self _ _) (fun h => hm h)
  | cons a A2 ih =>
    intro B seg hm hp
    rcases List.prefix_cons_iff.mp hp with rfl | ⟨t, rfl, ht⟩
    · exact List.nil_prefix
    · have hm2 : m ∈ t → False := fun h => hm (List.mem_cons_of_mem _ h)
      exact List.cons_prefix_cons.mpr ⟨rfl, ih B t hm2 ht⟩

/-- An infix avoiding the separator element lies in the left or right part. -/
theorem infix_append_mid {m : Char} : ∀ (A B seg : List Char), (m ∈ seg → False) →
    seg <:+: (A ++ m :: B) → seg <:+: A ∨ seg <:+: B := by
  intro A
  induction A with
  | nil =>
    intro B seg hm hp
    rw [List.nil_append] at hp
    rcases List.infix_cons_iff.mp hp with hpre | hinf
    · rcases List.prefix_cons_iff.mp hpre with rfl | ⟨t, rfl, _⟩
      · exact Or.inl List.nil_infix
      · exact absurd (List.mem_cons_self _ _) (fun h => hm h)
    · exact Or.inr hinf
  | cons a A2 ih =>
    intro B seg hm hp
    rw [List.cons_append] at hp
    rcases List.infix_cons_iff.mp hp with hpre | hinf
    · rcases List.prefix_cons_iff.mp hpre with rfl | ⟨t, rfl, ht⟩
      · exact Or.inl List.nil_infix
      · have hm2 : m ∈ t → False := fun h => hm (List.mem_cons_of_mem _ h)
        exact Or.inl (List.cons_prefix_cons.mpr ⟨rfl, prefix_append_mid A2 B t hm2 ht⟩).isInfix
    · rcases ih B seg hm hinf with h | h
      · exact Or.inl (List.infix_cons h)
      · exact Or.inr h

/-- An infix of a mapped list is the image of an infix. -/
theorem infix_of_map (f : Char → Char) : ∀ (A seg : List Char),
    seg <:+: A.map f → ∃ seg0, seg0 <:+: A ∧ seg = seg0.map f := by
  intro A seg hp
  rcases hp with ⟨s, t, hst⟩
  rcases List.map_eq_append_iff.mp hst.symm with ⟨l1, l2, hA, hl1, hl2⟩
  rcases List.map_eq_append_iff.mp hl1 with ⟨l3, l4, hL1, hl3, hl4⟩
  refine ⟨l4, ?_, hl4.symm⟩
  rw [hA, hL1]
  exact List.infix_append l3 l4 l2

theorem upChar_space_iff (c : Char) : upChar c = ' ' ↔ c = ' ' := by
  constructor
  · intro h
    unfold upChar at h
    by_cases hc : 'a' ≤ c ∧ c ≤ 'z'
    · exfalso
      rw [if_pos hc] at h
      have hge := (char_le_iff_toNat _ _).mp hc.1
      have ha : ('a' : Char).toNat = 97 := by decide
      rw [ha] at hge
      have hvalid : (c.toNat - 32).isValidChar := by
        have hle := (char_le_iff_toNat _ _).mp hc.2
        have hz : ('z' : Char).toNat = 122 := by decide
        rw [hz] at hle
        left; omega
      have := congrArg Char.toNat h
      rw [toNat_ofNat_valid _ hvalid] at this
      have hsp : (' ' : Char).toNat = 32 := by decide
      rw [hsp] at this
      omega
    · rwa [if_neg hc] at h
  · intro h
    subst h
    decide

theorem stripUrls_cons_nourl (c : Char) (cs : List Char)
    (h : isUrlStart (c :: cs) = false) : stripUrls (c :: cs) = c :: stripUrls cs := by
  unfold stripUrls
  simp only [List.length_cons]
  simp only [stripUrlsF, h, Bool.false_eq_true, if_false]

/-- stripUrls on a text that begins with a URL match: the whole match becomes
one space, and stripping continues after it. -/
theorem stripUrls_url_head (scheme body post : List Char)
    (hscheme : scheme.map lowChar = ("http://").data ∨ scheme.map lowChar = ("https://").data)
    (hbody : body ≠ [])
    (hnosp : ∀ c ∈ scheme ++ body, c.isWhitespace = false)
    (hpost : post = [] ∨ ∃ c2 cs2, post = c2 :: cs2 ∧ c2.isWhitespace = true) :
    stripUrls (scheme ++ body ++ post) = ' ' :: stripUrls post := by
  obtain ⟨b0, brest, rfl⟩ : ∃ b0 brest, body = b0 :: brest := by
    cases body with
    | nil => exact absurd rfl hbody
    | cons b0 brest => exact ⟨b0, brest, rfl⟩
  have hb0 : b0 ∈ scheme ++ b0 :: brest := List.mem_append_right _ (List.mem_cons_self _ _)
  have hlen7 : ("http://").data.length = 7 := rfl
  have hlen8 : ("https://").data.length = 8 := rfl
  have hslen : scheme.length = 7 ∨ scheme.length = 8 := by
    rcases hscheme with h | h
    · left; have := congrArg List.length h; simpa using this
    · right; have := congrArg List.length h; simpa using this
  have hdrop : ∀ n, n = scheme.length →
      (scheme ++ (b0 :: brest) ++ post).drop n = (b0 :: brest) ++ post := by
    intro n hn
    subst hn
    rw [List.append_assoc, List.drop_left]
  have htake : ∀ n, n = scheme.length →
      (scheme ++ (b0 :: brest) ++ post).take n = scheme := by
    intro n hn
    subst hn
    rw [List.append_assoc, List.take_left]
  have hnext : ∀ n, n = scheme.length →
      nextNonSpace (scheme ++ (b0 :: brest) ++ post) n = true := by
    intro n hn
    rw [nextNonSpace, hdrop n hn]
    simp [hnosp b0 hb0]
  -- the two scheme shapes are mutually exclusive on this text
  have hstartTrue : ∀ pat : List Char, scheme.map lowChar = pat →
      startsWithCI pat (scheme ++ (b0 :: brest) ++ post) = true := by
    intro pat hpat
    rw [startsWithCI, htake pat.length (by rw [← hpat]; simp)]
    simp [hpat]
  have hdw : List.dropWhile (fun x => ! x.isWhitespace) ((b0 :: brest) ++ post) = post := by
    rw [List.dropWhile_append]
    have hempty : (List.dropWhile (fun x => ! x.isWhitespace) (b0 :: brest)).isEmpty = true := by
      rw [List.isEmpty_iff, List.dropWhile_eq_nil_iff]
      intro x hx
      simp [hnosp x (List.mem_append_right _ hx)]
    rw [if_pos hempty]
    rcases hpost with rfl | ⟨c2, cs2, rfl, hws⟩
    · rfl
    · rw [List.dropWhile_cons]
      simp [hws]
  obtain ⟨s0, srest, rfl⟩ : ∃ s0 srest, scheme = s0 :: srest := by
    cases scheme with
    | nil => simp at hslen
    | cons s0 srest => exact ⟨s0, srest, rfl⟩
  have hcons : (s0 :: srest) ++ (b0 :: brest) ++ post
      = s0 :: (srest ++ (b0 :: brest) ++ post) := by simp
  have hlensum : (srest ++ (b0 :: brest) ++ post).length
      = srest.length + (brest.length + 1) + post.length := by
    simp [List.length_append]
    omega
  rcases hscheme with hsch | hsch
  · have hs7 : (s0 :: srest).length = 7 := by
      have := congrArg List.length hsch; simpa using this
    have hstart : startsWithCI (("http://").data)
        ((s0 :: srest) ++ (b0 :: brest) ++ post) = true := hstartTrue _ hsch
    have hnotHttps : startsWithCI (("https://").data)
        ((s0 :: srest) ++ (b0 :: brest) ++ post) = false := by
      rw [startsWithCI, hlen8, List.map_take]
      have hmapl : List.map lowChar ((s0 :: srest) ++ (b0 :: brest) ++ post)
          = ("http://").data ++ List.map lowChar (b0 :: (brest ++ post)) := by
        rw [List.append_assoc, List.map_append, hsch]
        simp
      rw [hmapl]
      have htk : ((("http://").data ++ List.map lowChar (b0 :: (brest ++ post))).take 8)
          = ("http://").data ++ [lowChar b0] := rfl
      rw [htk, beq_eq_false_iff_ne]
      intro h
      exact absurd
        (congrArg (fun l => (l.drop 4).head?) h : (some ':' : Option Char) = some 's')
        (by decide)
    have hurl : isUrlStart ((s0 :: srest) ++ (b0 :: brest) ++ post) = true := by
      rw [isUrlStart, hstart, hnext 7 hs7.symm]
      simp
    rw [hcons] at hurl ⊢
    rw [hcons] at hnotHttps
    unfold stripUrls
    simp only [List.length_cons]
    simp only [stripUrlsF, hurl, if_true, hnotHttps, Bool.false_eq_true, if_false]
    rw [← hcons, hdrop 7 hs7.symm, hdw]
    congr 1
    apply stripUrlsF_congr
    · rw [hlensum]; omega
    · exact le_rfl
  · have hs8 : (s0 :: srest).length = 8 := by
      have := congrArg List.length hsch; simpa using this
    have hstart : startsWithCI (("https://").data)
        ((s0 :: srest) ++ (b0 :: brest) ++ post) = true := hstartTrue _ hsch
    have hurl : isUrlStart ((s0 :: srest) ++ (b0 :: brest) ++ post) = true := by
      rw [isUrlStart, hstart, hnext 8 hs8.symm]
      simp
    rw [hcons] at hurl ⊢
    rw [hcons] at hstart
    unfold stripUrls
    simp only [List.length_cons]
    simp only [stripUrlsF, hurl, if_true, hstart, if_true]
    rw [← hcons, hdrop 8 hs8.symm, hdw]
    congr 1
    apply stripUrlsF_congr
    · rw [hlensum]; omega
    · exact le_rfl

/-- stripUrls of a text with a single URL occurrence: the prefix before it is
copied, the URL span becomes one space, and stripping continues after it. -/
theorem stripUrls_decomp (scheme body post : List Char)
    (hscheme : scheme.map lowChar = ("http://").data ∨ scheme.map lowChar = ("https://").data)
    (hbody : body ≠ [])
    (hnosp : ∀ c ∈ scheme ++ body, c.isWhitespace = false)
    (hpost : post = [] ∨ ∃ c2 cs2, post = c2 :: cs2 ∧ c2.isWhitespace = true) :
    ∀ pre : List Char,
      (∀ k, k < pre.length →
        isUrlStart ((pre ++ (scheme ++ body ++ post)).drop k) = false) →
      stripUrls (pre ++ (scheme ++ body ++ post)) = pre ++ (' ' :: stripUrls post) := by
  intro pre
  induction pre with
  | nil =>
    intro _
    simpa using stripUrls_url_head scheme body post hscheme hbody hnosp hpost
  | cons p pre2 ih =>
    intro hpre
    have h0 := hpre 0 (by simp)
    rw [List.drop_zero] at h0
    have hc : (p :: pre2) ++ (scheme ++ body ++ post)
        = p :: (pre2 ++ (scheme ++ body ++ post)) := rfl
    rw [hc] at h0
    rw [hc, stripUrls_cons_nourl p _ h0]
    have hpre2 : ∀ k, k < pre2.length →
        isUrlStart ((pre2 ++ (scheme ++ body ++ post)).drop k) = false := by
      intro k hk
      have := hpre (k + 1) (by simpa using Nat.succ_lt_succ hk)
      rw [hc] at this
      simpa [List.drop_succ_cons] using this
    rw [ih hpre2]
    rfl

/-- C5: on a text containing one regex-matched URL span, every token extract
returns is the upper-casing of a substring of the text outside that span
(before or after the URL), because the span is blanked to a space before
upper-casing and scanning; in particular a token whose occurrences all lie
within the URL (such as a path segment appearing nowhere else) is never
returned. -/
theorem C5_url_spans_never_extracted (st : ExtractionSettings)
    (pre scheme body post : List Char)
    (hscheme : scheme.map lowChar = ("http://").data ∨ scheme.map lowChar = ("https://").data)
    (hbody : body ≠ [])
    (hnosp : ∀ c ∈ scheme ++ body, c.isWhitespace = false)
    (hpost : post = [] ∨ ∃ c2 cs2, post = c2 :: cs2 ∧ c2.isWhitespace = true)
    (hpre : ∀ k, k < pre.length →
      isUrlStart ((pre ++ (scheme ++ body ++ post)).drop k) = false) :
    ∀ t ∈ extract st (String.mk (pre ++ (scheme ++ body ++ post))),
      ∃ t0 : List Char, t.data = t0.map upChar ∧ (t0 <:+: pre ∨ t0 <:+: post) := by
  intro t ht
  obtain ⟨r, hr, hteq, hrne, hrall⟩ := extract_mem_structure st _ t ht
  have hdata : (String.mk (pre ++ (scheme ++ body ++ post))).data
      = pre ++ (scheme ++ body ++ post) := rfl
  rw [hdata] at hr
  rw [stripUrls_decomp scheme body post hscheme hbody hnosp hpost pre hpre] at hr
  obtain ⟨_, hrword, hrinf⟩ := wordRunsF_spec _ _ r hr
  have hnospace : ' ' ∈ r → False := space_not_mem_of_all_wordChar r hrword
  have hmapsplit : (pre ++ (' ' :: stripUrls post)).map upChar
      = pre.map upChar ++ ' ' :: (stripUrls post).map upChar := by
    simp [List.map_append, List.map_cons, show upChar ' ' = ' ' from by decide]
  rw [hmapsplit] at hrinf
  rcases infix_append_mid _ _ r hnospace hrinf with hL | hR
  · obtain ⟨r0, hr0inf, hr0eq⟩ := infix_of_map upChar pre r hL
    refine ⟨r0, ?_, Or.inl hr0inf⟩
    rw [hteq]
    exact hr0eq
  · obtain ⟨r1, hr1inf, hr1eq⟩ := infix_of_map upChar (stripUrls post) r hR
    have hns1 : ' ' ∈ r1 → False := by
      intro hm
      apply hnospace
      rw [hr1eq]
      exact List.mem_map.mpr ⟨' ', hm, by decide⟩
    rw [stripUrls] at hr1inf
    refine ⟨r1, ?_, Or.inr (stripUrlsF_infix_noSpace post.length post r1 hns1 hr1inf)⟩
    rw [hteq]
    exact hr1eq

/-- The pieces of the test-suite text with a URL, split at the URL match. -/
def c5pre : List Char := ("Check ").data

/-- The URL scheme of the witness text. -/
def c5scheme : List Char := ("https://").data

/-- The URL body (host and path) of the witness text. -/
def c5body : List Char := ("example.com/ABC12").data

/-- The rest of the witness text after the URL. -/
def c5post : List Char := (" path or code ZX9K3 at the end").data

theorem C5_url_spans_never_extracted_witness :
    ∃ t0 : List Char, ("ZX9K3").data = t0.map upChar ∧ (t0 <:+: c5pre ∨ t0 <:+: c5post) :=
  C5_url_spans_never_extracted testSettings c5pre c5scheme c5body c5post
    (Or.inr (by decide)) (by decide) (by decide)
    (Or.inr ⟨' ', ("path or code ZX9K3 at the end").data, rfl, by decide⟩)
    (by decide) ("ZX9K3") (by decide)

theorem pyStrLt_iff (a b : String) : pyStrLt a b ↔ a < b := by
  unfold pyStrLt
  exact String.lt_iff_toList_lt.symm

theorem mem_insertLe (le : α → α → Bool) (x : α) :
    ∀ (l : List α) (y : α), y ∈ insertLe le x l ↔ y = x ∨ y ∈ l := by
  intro l
  induction l with
  | nil => intro y; simp [insertLe]
  | cons z zs ih =>
    intro y
    by_cases h : le x z = true
    · simp only [insertLe, h, if_true, List.mem_cons]
    · have h2 := eq_false_of_ne_true h
      simp only [insertLe, h2, Bool.false_eq_true, if_false, List.mem_cons, ih y]
      tauto

theorem mem_insertionSortBy (le : α → α → Bool) :
    ∀ (l : List α) (y : α), y ∈ insertionSortBy le l ↔ y ∈ l := by
  intro l
  induction l with
  | nil => intro y; simp [insertionSortBy]
  | cons z zs ih =>
    intro y
    rw [insertionSortBy, mem_insertLe, List.mem_cons, ih y]

theorem map_insertLe (f : α → β) (le2 : α → α → Bool) (le1 : β → β → Bool) (x : α) :
    ∀ l : List α, (∀ a ∈ l, le2 x a = le1 (f x) (f a)) →
      (insertLe le2 x l).map f = insertLe le1 (f x) (l.map f) := by
  intro l
  induction l with
  | nil => intro _; rfl
  | cons z zs ih =>
    intro h
    have hz := h z (List.mem_cons_self _ _)
    by_cases hle : le2 x z = true
    · simp [insertLe, hle, ← hz]
    · have hle2 := eq_false_of_ne_true hle
      simp only [insertLe, hle2, Bool.false_eq_true, if_false, List.map_cons, ← hz]
      rw [ih (fun a ha => h a (List.mem_cons_of_mem _ ha))]

theorem map_insertionSortBy (f : α → β) (le2 : α → α → Bool) (le1 : β → β → Bool) :
    ∀ l : List α, (∀ a ∈ l, ∀ b ∈ l, le2 a b = le1 (f a) (f b)) →
      (insertionSortBy le2 l).map f = insertionSortBy le1 (l.map f) := by
  intro l
  induction l with
  | nil => intro _; rfl
  | cons x xs ih =>
    intro h
    rw [insertionSortBy, List.map_cons, insertionSortBy]
    rw [← ih (fun a ha b hb =>
      h a (List.mem_cons_of_mem _ ha) b (List.mem_cons_of_mem _ hb))]
    apply map_insertLe
    intro a ha
    exact h x (List.mem_cons_self _ _) a
      (List.mem_cons_of_mem _ ((mem_insertionSortBy le2 xs a).mp ha))

theorem any_map_general (f : α → β) (p : β → Bool) :
    ∀ l : List α, (l.map f).any p = l.any (fun a => p (f a)) := by
  intro l
  induction l with
  | nil => rfl
  | cons x xs ih => simp [List.any_cons, ih]

/-- A sequence of add_candidate calls against the in-memory backend. -/
def memFold : Mem.Store → List CandidateRecord → Mem.Store
  | st, [] => st
  | st, c :: cs => memFold (Mem.add_candidate st c).2 cs

/-- The same sequence of add_candidate calls against the SQLite backend. -/
def sqlFold : Sql.Db → List CandidateRecord → Sql.Db
  | db, [] => db
  | db, c :: cs => sqlFold (Sql.add_candidate db c).2 cs

/-- For uppercase codes the two backends store the same records in the same
order after any add sequence: the dict is exactly the table keyed by code,
and the stored rows form a subsequence of the attempted inserts. -/
theorem fold_correspondence :
    ∀ (adds : List CandidateRecord) (db : Sql.Db),
      (∀ c ∈ adds, pyUpper c.code = c.code) →
      (memFold (db.rows.map (fun r => (r.2.code, r.2))) adds
          = (sqlFold db adds).rows.map (fun r => (r.2.code, r.2)))
      ∧ List.Sublist ((sqlFold db adds).rows.map Prod.snd)
          (db.rows.map Prod.snd ++ adds) := by
  intro adds
  induction adds with
  | nil =>
    intro db _
    refine ⟨rfl, ?_⟩
    rw [show sqlFold db [] = db from rfl, List.append_nil]
  | cons c cs ih =>
    intro db hcodes
    have hc := hcodes c (List.mem_cons_self _ _)
    have hcs : ∀ x ∈ cs, pyUpper x.code = x.code :=
      fun x hx => hcodes x (List.mem_cons_of_mem _ hx)
    have hagree : Mem.containsKey (db.rows.map (fun r => (r.2.code, r.2))) (pyUpper c.code)
        = Sql.containsCode db c.code := by
      rw [hc, Mem.containsKey, Sql.containsCode, any_map_general]
    by_cases hdup : Sql.containsCode db c.code = true
    · have hmem : (Mem.add_candidate (db.rows.map (fun r => (r.2.code, r.2))) c).2
          = db.rows.map (fun r => (r.2.code, r.2)) := by
        rw [Mem.add_candidate]
        rw [hagree, hdup]
        simp
      have hsql : (Sql.add_candidate db c).2 = db := by
        rw [Sql.add_candidate, hdup]
        simp
      rw [memFold, sqlFold, hmem, hsql]
      refine ⟨(ih db hcs).1, ?_⟩
      exact ((ih db hcs).2).trans
        (List.Sublist.append_left (List.sublist_cons_self c cs) _)
    · have hdup2 : Sql.containsCode db c.code = false := eq_false_of_ne_true hdup
      have hmem : (Mem.add_candidate (db.rows.map (fun r => (r.2.code, r.2))) c).2
          = (db.rows.map (fun r => (r.2.code, r.2))) ++ [(pyUpper c.code, c)] := by
        rw [Mem.add_candidate]
        rw [hagree, hdup2]
        simp
      have hsql : (Sql.add_candidate db c).2
          = { rows := db.rows ++ [(db.nextId, c)], nextId := db.nextId + 1 } := by
        rw [Sql.add_candidate, hdup2]
        simp
      rw [memFold, sqlFold, hmem, hsql]
      have hshape : (db.rows.map (fun r => (r.2.code, r.2))) ++ [(pyUpper c.code, c)]
          = ({ rows := db.rows ++ [(db.nextId, c)], nextId := db.nextId + 1 } : Sql.Db).rows.map
              (fun r => (r.2.code, r.2)) := by
        simp [List.map_append, hc]
      rw [hshape]
      refine ⟨(ih _ hcs).1, ?_⟩
      have := (ih { rows := db.rows ++ [(db.nextId, c)], nextId := db.nextId + 1 } hcs).2
      simp only [List.map_append] at this
      rw [List.append_assoc] at this
      simpa using this

/-- Under pairwise-distinct timestamps whose string order matches the SQLite
datetime order, the SQLite comparator agrees with the Python sort key on
every pair of stored rows. -/
theorem sqlLe_eq_memLe (pairs : List (Nat × CandidateRecord))
    (hts : pairs.Pairwise (fun p q => p.2.discovered_at ≠ q.2.discovered_at))
    (hord : ∀ p ∈ pairs, ∀ q ∈ pairs,
      (pyStrLt p.2.discovered_at q.2.discovered_at ↔
        pyStrLt (dtKey p.2.discovered_at) (dtKey q.2.discovered_at))) :
    ∀ p ∈ pairs, ∀ q ∈ pairs, sqlLe p q = memLe p.2 q.2 := by
  intro p hp q hq
  by_cases hpq : p = q
  · subst hpq
    simp [sqlLe, memLe, pyStrLt_iff]
  · have hsymm : Symmetric (fun p q : Nat × CandidateRecord =>
        p.2.discovered_at ≠ q.2.discovered_at) := fun a b h => Ne.symm h
    have hne : p.2.discovered_at ≠ q.2.discovered_at :=
      List.Pairwise.forall hsymm hts hp hq hpq
    rcases Ne.lt_or_lt hne with hlt | hlt
    · have h1 : pyStrLt p.2.discovered_at q.2.discovered_at := (pyStrLt_iff _ _).mpr hlt
      have h2 : dtKey p.2.discovered_at < dtKey q.2.discovered_at :=
        (pyStrLt_iff _ _).mp ((hord p hp q hq).mp h1)
      have d1 : decide (pyStrLt (dtKey q.2.discovered_at) (dtKey p.2.discovered_at)) = false :=
        decide_eq_false (fun h => absurd ((pyStrLt_iff _ _).mp h) (asymm h2))
      have d2 : (dtKey p.2.discovered_at == dtKey q.2.discovered_at) = false :=
        beq_eq_false_iff_ne.mpr (ne_of_lt h2)
      have d3 : decide (pyStrLt p.2.discovered_at q.2.discovered_at) = true :=
        decide_eq_true h1
      rw [sqlLe, memLe, d1, d2, d3]
      simp
    · have h1 : pyStrLt q.2.discovered_at p.2.discovered_at := (pyStrLt_iff _ _).mpr hlt
      have h2 : dtKey q.2.discovered_at < dtKey p.2.discovered_at :=
        (pyStrLt_iff _ _).mp ((hord q hq p hp).mp h1)
      have d1 : decide (pyStrLt (dtKey q.2.discovered_at) (dtKey p.2.discovered_at)) = true :=
        decide_eq_true ((pyStrLt_iff _ _).mpr h2)
      have d3 : decide (pyStrLt p.2.discovered_at q.2.discovered_at) = false :=
        decide_eq_false (fun h => absurd hlt (asymm ((pyStrLt_iff _ _).mp h)))
      rw [sqlLe, memLe, d1, d3]
      simp

theorem length_insertLe (le : α → α → Bool) (x : α) :
    ∀ l : List α, (insertLe le x l).length = l.length + 1 := by
  intro l
  induction l with
  | nil => rfl
  | cons y ys ih =>
    by_cases h : le x y = true
    · simp [insertLe, h]
    · simp [insertLe, eq_false_of_ne_true h, ih]

theorem length_insertionSortBy (le : α → α → Bool) :
    ∀ l : List α, (insertionSortBy le l).length = l.length := by
  intro l
  induction l with
  | nil => rfl
  | cons x xs ih => simp [insertionSortBy, length_insertLe, ih]

/-- C9, amended: after the same sequence of add_candidate calls with
uppercase codes whose discovery timestamps are pairwise distinct and whose
string order agrees with the SQLite datetime order, the two backends return
the same records in the same order from list (without a text filter) and the
same totals from count; get_latest also agrees when no stored record is
hidden.  (With equal timestamps the backends order the tie oppositely, and
SQLite's get_latest does not filter hidden records, so those cases are
excluded.) -/
theorem C9_backend_equivalence_amended (adds : List CandidateRecord)
    (hcodes : ∀ c ∈ adds, pyUpper c.code = c.code)
    (hts : adds.Pairwise (fun a b => a.discovered_at ≠ b.discovered_at))
    (hord : ∀ a ∈ adds, ∀ b ∈ adds,
      (pyStrLt a.discovered_at b.discovered_at ↔
        pyStrLt (dtKey a.discovered_at) (dtKey b.discovered_at)))
    (hsize : adds.length ≤ 10000000) :
    (∀ (source : Option String) (ih it : Bool) (off lim : Nat),
      Mem.list (memFold [] adds) none source ih it off lim
        = Sql.list (sqlFold Sql.init adds) none source ih it off lim)
    ∧ (∀ (source : Option String) (ih it : Bool),
      Mem.count (memFold [] adds) none source ih it
        = Sql.count (sqlFold Sql.init adds) none source ih it)
    ∧ ((∀ c ∈ adds, c.hidden = 0) →
        ∀ lim, Mem.get_latest (memFold [] adds) lim
          = Sql.get_latest (sqlFold Sql.init adds) lim) := by
  have hfold := fold_correspondence adds Sql.init hcodes
  have hst : memFold [] adds
      = (sqlFold Sql.init adds).rows.map (fun r => (r.2.code, r.2)) := by
    have := hfold.1
    simpa [Sql.init] using this
  have hsub : List.Sublist ((sqlFold Sql.init adds).rows.map Prod.snd) adds := by
    have := hfold.2
    simpa [Sql.init] using this
  have hstore_snd : (memFold [] adds).map Prod.snd
      = (sqlFold Sql.init adds).rows.map Prod.snd := by
    rw [hst, List.map_map]
    rfl
  have hrecpw : List.Pairwise (fun a b : CandidateRecord => a.discovered_at ≠ b.discovered_at)
      ((sqlFold Sql.init adds).rows.map Prod.snd) := List.Pairwise.sublist hsub hts
  have hts_pairs : (sqlFold Sql.init adds).rows.Pairwise
      (fun p q => p.2.discovered_at ≠ q.2.discovered_at) := by
    rw [List.pairwise_map] at hrecpw
    exact hrecpw
  have hord_pairs : ∀ p ∈ (sqlFold Sql.init adds).rows,
      ∀ q ∈ (sqlFold Sql.init adds).rows,
      (pyStrLt p.2.discovered_at q.2.discovered_at ↔
        pyStrLt (dtKey p.2.discovered_at) (dtKey q.2.discovered_at)) := by
    intro p hp q hq
    exact hord p.2 (hsub.subset (List.mem_map_of_mem _ hp))
      q.2 (hsub.subset (List.mem_map_of_mem _ hq))
  have hsort : ∀ passF : CandidateRecord → Bool,
      (insertionSortBy sqlLe ((sqlFold Sql.init adds).rows.filter
          (fun r => passF r.2))).map Prod.snd
        = insertionSortBy memLe
            (((sqlFold Sql.init adds).rows.map Prod.snd).filter passF) := by
    intro passF
    have hfp : List.Sublist ((sqlFold Sql.init adds).rows.filter (fun r => passF r.2))
        (sqlFold Sql.init adds).rows := List.filter_sublist _
    have hagree := sqlLe_eq_memLe _
      (List.Pairwise.sublist hfp hts_pairs)
      (fun p hp q hq => hord_pairs p (hfp.subset hp) q (hfp.subset hq))
    rw [map_insertionSortBy Prod.snd sqlLe memLe _
      (fun a ha b hb => hagree a ha b hb)]
    congr 1
    rw [List.filter_map]
    rfl
  have hlistEq : ∀ (source : Option String) (ihh itt : Bool) (off lim : Nat),
      Mem.list (memFold [] adds) none source ihh itt off lim
        = Sql.list (sqlFold Sql.init adds) none source ihh itt off lim := by
    intro source ihh itt off lim
    have hpass : Mem.recordPasses none source ihh itt = Sql.rowPasses none source ihh itt :=
      rfl
    rw [Mem.list, Sql.list, hstore_snd, hpass]
    rw [List.map_take, List.map_drop, hsort (Sql.rowPasses none source ihh itt)]
  refine ⟨hlistEq, ?_, ?_⟩
  · intro source ihh itt
    rw [Mem.count, hlistEq source ihh itt 0 10000000, Sql.count, Sql.list]
    rw [List.length_map, List.length_take, List.length_drop, length_insertionSortBy]
    have hfle : ((sqlFold Sql.init adds).rows.filter
        (fun r => Sql.rowPasses none source ihh itt r.2)).length ≤ adds.length := by
      calc ((sqlFold Sql.init adds).rows.filter
            (fun r => Sql.rowPasses none source ihh itt r.2)).length
          ≤ (sqlFold Sql.init adds).rows.length := List.length_filter_le _ _
        _ = ((sqlFold Sql.init adds).rows.map Prod.snd).length := (List.length_map _ _).symm
        _ ≤ adds.length := hsub.length_le
    omega
  · intro hhid lim
    have hfilter_self : ((sqlFold Sql.init adds).rows.filter
        (fun r => Mem.recordPasses none none false true r.2))
        = (sqlFold Sql.init adds).rows := by
      rw [List.filter_eq_self]
      intro p hp
      have hmem : p.2 ∈ adds := hsub.subset (List.mem_map_of_mem _ hp)
      have hh := hhid p.2 hmem
      simp [Mem.recordPasses, hh]
    have hfilter_self2 : (((sqlFold Sql.init adds).rows.map Prod.snd).filter
        (Mem.recordPasses none none false true))
        = (sqlFold Sql.init adds).rows.map Prod.snd := by
      rw [List.filter_eq_self]
      intro r hr
      have hmem : r ∈ adds := hsub.subset hr
      have hh := hhid r hmem
      simp [Mem.recordPasses, hh]
    rw [Mem.get_latest, Mem.list, hstore_snd, hfilter_self2, Sql.get_latest]
    rw [List.map_take]
    have hsortall : (insertionSortBy sqlLe (sqlFold Sql.init adds).rows).map Prod.snd
        = insertionSortBy memLe ((sqlFold Sql.init adds).rows.map Prod.snd) := by
      have := hsort (fun _ => true)
      simpa [List.filter_eq_self.mpr] using hsort (fun _ => true)
    rw [hsortall, List.drop_zero]

/-- Two candidates discovered at the same instant. -/
def tieA : CandidateRecord :=
  { code := "AAA11", source := "test", source_title := "A", url := "",
    example_text := "", discovered_at := "2024-01-01T00:00:00+00:00",
    tried := 0, hidden := 0 }

/-- The second candidate of the tie, inserted after the first. -/
def tieB : CandidateRecord := { tieA with code := "BBB22", source_title := "B" }

/-- A candidate stored with the hidden flag set. -/
def hiddenRec : CandidateRecord := { tieA with code := "CCC33", hidden := 1 }

/-- C9 fails as stated: on two records with equal discovery timestamps the
in-memory backend lists insertion order first (stable sort) while SQLite
lists the later rowid first, and a hidden record appears in SQLite's
get_latest but not in the in-memory get_latest. -/
theorem C9_counterexample :
    (Mem.list (memFold [] [tieA, tieB]) none none false true 0 100 = [tieA, tieB]
      ∧ Sql.list (sqlFold Sql.init [tieA, tieB]) none none false true 0 100 = [tieB, tieA]
      ∧ ¬ (Mem.list (memFold [] [tieA, tieB]) none none false true 0 100
            = Sql.list (sqlFold Sql.init [tieA, tieB]) none none false true 0 100))
    ∧ (Mem.get_latest (memFold [] [hiddenRec]) 20 = []
      ∧ Sql.get_latest (sqlFold Sql.init [hiddenRec]) 20 = [hiddenRec]
      ∧ ¬ (Mem.get_latest (memFold [] [hiddenRec]) 20
            = Sql.get_latest (sqlFold Sql.init [hiddenRec]) 20)) := by
  decide

/-- A second distinct-timestamp candidate for the equivalence witness. -/
def c9recB : CandidateRecord :=
  { sampleRecord with code := "CD456", discovered_at := "2024-01-02T00:00:00+00:00" }

theorem C9_backend_equivalence_amended_witness :
    (∀ (source : Option String) (ih it : Bool) (off lim : Nat),
      Mem.list (memFold [] [sampleRecord, c9recB]) none source ih it off lim
        = Sql.list (sqlFold Sql.init [sampleRecord, c9recB]) none source ih it off lim)
    ∧ (∀ (source : Option String) (ih it : Bool),
      Mem.count (memFold [] [sampleRecord, c9recB]) none source ih it
        = Sql.count (sqlFold Sql.init [sampleRecord, c9recB]) none source ih it)
    ∧ ((∀ c ∈ [sampleRecord, c9recB], c.hidden = 0) →
        ∀ lim, Mem.get_latest (memFold [] [sampleRecord, c9recB]) lim
          = Sql.get_latest (sqlFold Sql.init [sampleRecord, c9recB]) lim) :=
  C9_backend_equivalence_amended [sampleRecord, c9recB]
    (by decide) (by decide) (by decide) (by decide)
